import Mathlib

/-!
# matxscript IR docsifier: embedding and verification

Shallow embedding of `src/ir/printer/ir_docsifier.cc`:

* the common-prefix walk `IRDocsifierNode::SetCommonPrefix` (its local
  `Visitor` class with `Visit` and `HandleVar`);
* the variable table operations `Define`, `GetVarDoc`, `IsVarDefined`,
  `RemoveVar`, and the metadata table operation `AddMetadata`;

and of the regex builtin registrations of `src/ir/hlo_builtin_regex.cc`.

The object heap holds `n` live objects; an `ObjectRef n` is either null
(`none`) or a pointer to one of them.  Pointer identity is equality of
`Fin n`.
-/

namespace Matx

/-! ## Object model -/

/-- An object reference: `none` is the null pointer. -/
abbrev ObjectRef (n : Nat) := Option (Fin n)

/-- One reflected attribute handed to the visitor by `VisitAttrs`.  Only the
`ObjectRef*` overload of `Visit` has a body; the overloads for `double`,
`int64_t`, `uint64_t`, `int`, `bool`, `String`, `void*`, `DataType` and
`NDArray` are empty, so they are collapsed into `scalar`. -/
inductive AttrValue (n : Nat) where
  | scalar : AttrValue n
  | objectRef (value : ObjectRef n) : AttrValue n

/-- The three object kinds `Visit` distinguishes. -/
inductive Object (n : Nat) where
  | ArrayNode (elements : List (ObjectRef n)) : Object n
  | MapNode (entries : List (ObjectRef n × ObjectRef n)) : Object n
  | Reflected (attrs : List (AttrValue n)) : Object n

/-- The heap: what each live object is. -/
abbrev Heap (n : Nat) := Fin n → Object n

/-- The references on which `Visit(const char*, ObjectRef*)` is invoked while
the children of an object are enumerated, in invocation order: the array
elements; for a map each key followed by its value; otherwise the
`ObjectRef` attributes reported by `VisitAttrs`. -/
def childRefs {n : Nat} : Object n → List (ObjectRef n)
  | .ArrayNode elements => elements
  | .MapNode entries => entries.flatMap (fun kv => [kv.1, kv.2])
  | .Reflected attrs =>
      attrs.filterMap (fun a =>
        match a with
        | .scalar => none
        | .objectRef value => some value)

/-! ## The visitor of `SetCommonPrefix` -/

/-- State of the local `Visitor` class.  The last three fields are ghost logs
(not in the source), most recent first: `entered` records every execution of
the body of `Visit` past the null check; `discovered` records, at each such
execution, the object with the path stack right after it was pushed;
`handled` records every call of `HandleVar`, with `true` when the call took
the prefix-shrinking branch. -/
structure Visitor (n : Nat) where
  stack_ : List (Fin n)
  common_prefix : ObjectRef n → Option (List (Fin n))
  visited : List (ObjectRef n)
  entered : List (Fin n)
  discovered : List (Fin n × List (Fin n))
  handled : List (Fin n × Bool)

/-- The loop `for (int i = 0; i < n; ++i) if (a[i] != b[i]) { a.resize(i); break; }`
with `r` iterations left and loop index `i`; the result is the final `a`. -/
def shrinkLoop {n : Nat} (a b : List (Fin n)) : Nat → Nat → List (Fin n)
  | 0, _ => a
  | r + 1, i => if a[i]? ≠ b[i]? then a.take i else shrinkLoop a b r (i + 1)

/-- `Visitor::HandleVar`. -/
def HandleVar {n : Nat} (var : Fin n) (s : Visitor n) : Visitor n :=
  match s.common_prefix (some var) with
  | none =>
      { s with common_prefix := Function.update s.common_prefix (some var) (some s.stack_)
               handled := (var, false) :: s.handled }
  | some a =>
      let b := s.stack_
      let k := min a.length b.length
      { s with common_prefix :=
                 Function.update s.common_prefix (some var) (some (shrinkLoop a b k 0))
               handled := (var, true) :: s.handled }

/-- `Visitor::Visit(const char*, ObjectRef*)`.  The first argument bounds the
recursion depth; `none` means the bound was hit. -/
def Visit {n : Nat} (heap : Heap n) (is_var : ObjectRef n → Bool) :
    Nat → ObjectRef n → Visitor n → Option (Visitor n)
  | 0, _, _ => none
  | fuel + 1, value, s =>
      if value ∈ s.visited then some s
      else
        let s1 : Visitor n := { s with visited := value :: s.visited }
        match value with
        | none => some s1
        | some obj =>
            let s2 : Visitor n :=
              { s1 with stack_ := s1.stack_ ++ [obj], entered := obj :: s1.entered,
                        discovered := (obj, s1.stack_ ++ [obj]) :: s1.discovered }
            match (childRefs (heap obj)).foldlM (fun st c => Visit heap is_var fuel c st) s2 with
            | none => none
            | some s3 =>
                let s4 := if is_var (some obj) then HandleVar obj s3 else s3
                some { s4 with stack_ := s4.stack_.dropLast }

/-- A freshly constructed `Visitor`. -/
def Visitor.init (n : Nat) : Visitor n :=
  { stack_ := [], common_prefix := fun _ => none, visited := [], entered := [],
    discovered := [], handled := [] }

/-- The call `visitor(root)` in `SetCommonPrefix`, with recursion bound
`n + 2`. -/
def runVisitor {n : Nat} (heap : Heap n) (root : ObjectRef n) (is_var : ObjectRef n → Bool) :
    Option (Visitor n) :=
  Visit heap is_var (n + 2) root (Visitor.init n)

/-- `IRDocsifierNode::SetCommonPrefix`: the table moved into
`this->common_prefix`. -/
def SetCommonPrefix {n : Nat} (heap : Heap n) (root : ObjectRef n)
    (is_var : ObjectRef n → Bool) : Option (ObjectRef n → Option (List (Fin n))) :=
  (runVisitor heap root is_var).map (fun v => v.common_prefix)

/-! ## Documents -/

/-- An identifier document `IdDoc(name)`. -/
structure IdDoc where
  name : String
deriving DecidableEq

/-- The expression documents built by the docsifier: identifiers, string and
integer literals, and index expressions `value[indices]`. -/
inductive ExprDoc where
  | Id (doc : IdDoc) : ExprDoc
  | LiteralStr (value : String) : ExprDoc
  | LiteralInt (value : Int) : ExprDoc
  | Index (value : ExprDoc) (indices : List ExprDoc) : ExprDoc

/-- The type `DocCreator`: a zero-argument function producing a document. -/
abbrev DocCreator := Unit → ExprDoc

/-! ## The variable table of `IRDocsifierNode` -/

/-- The record `IRDocsifierNode::VariableInfo`. -/
structure VariableInfo where
  creator : DocCreator
  name : Option String

/-- The failures raised by `MXCHECK`, by message. -/
inductive Error (n : Nat) where
  | DuplicatedObject (obj : ObjectRef n) : Error n
  | NoSuchObject (obj : ObjectRef n) : Error n
  | NullMetadata : Error n

/-- The members of `IRDocsifierNode` that `Define`, `GetVarDoc`,
`AddMetadata`, `IsVarDefined` and `RemoveVar` read or write.  The set
`defined_names` is a list read through membership only; `metadata` maps a
type key to its bucket, `none` when the key has no bucket. -/
structure IRDocsifierNode (n : Nat) where
  obj2info : ObjectRef n → Option VariableInfo
  defined_names : List String
  metadata : String → Option (List (ObjectRef n))

/-- An exit callback registered by `Define`: the closure
`[this, obj]() { this->RemoveVar(obj); }`, kept as the captured `obj`. -/
inductive ExitCallback (n : Nat) where
  | RemoveVar (obj : ObjectRef n) : ExitCallback n

/-- A frame: its list of exit callbacks, in the order added. -/
structure FrameNode (n : Nat) where
  callbacks : List (ExitCallback n)

/-- The docsifier together with the frames it registers callbacks on; a frame
is identified by a number. -/
structure Session (n : Nat) where
  d : IRDocsifierNode n
  frames : Nat → FrameNode n

/-- A docsifier with nothing bound, no live name and no metadata. -/
def IRDocsifierNode.empty (n : Nat) : IRDocsifierNode n :=
  { obj2info := fun _ => none, defined_names := [], metadata := fun _ => none }

/-- Modelled from the spec: `FrameNode::AddExitCallback` (declared outside
src/), which appends the callback to the frame's list. -/
def FrameNode.AddExitCallback {n : Nat} (frame : FrameNode n) (cb : ExitCallback n) :
    FrameNode n :=
  { callbacks := frame.callbacks ++ [cb] }

/-- Modelled from the spec: the retry loop of `GenerateUniqueName`, trying the
hint extended by the disambiguators `i`, `i + 1`, ...; the number of retries
is bounded by the first argument. -/
def retryName (name_hint : String) (defined_names : List String) : Nat → Nat → String
  | 0, i => name_hint ++ "_" ++ toString i
  | fuel + 1, i =>
      let name := name_hint ++ "_" ++ toString i
      if name ∈ defined_names then retryName name_hint defined_names fuel (i + 1) else name

/-- Modelled from the spec: `GenerateUniqueName` (declared in
`printer/utils.h`, outside src/).  A hint that is not live is returned
unchanged; otherwise a numeric disambiguator is appended and the search
retries, at most once more than there are live names. -/
def GenerateUniqueName (name_hint : String) (defined_names : List String) : String :=
  if name_hint ∈ defined_names then
    retryName name_hint defined_names (defined_names.length + 1) 1
  else name_hint

/-- The call `obj2info.insert({obj, info})` of `std::unordered_map`: an
existing entry is kept. -/
def insertInfo {n : Nat} (obj2info : ObjectRef n → Option VariableInfo) (obj : ObjectRef n)
    (info : VariableInfo) : ObjectRef n → Option VariableInfo :=
  match obj2info obj with
  | some _ => obj2info
  | none => Function.update obj2info obj (some info)

/-- `IRDocsifierNode::Define(obj, frame, name_hint)`.  The name generator is
a parameter; the result is the returned `IdDoc` or the failure, with the
state the call leaves behind. -/
def Define {n : Nat} (gen : String → List String → String) (obj : ObjectRef n) (frame : Nat)
    (name_hint : String) (w : Session n) : Except (Error n) IdDoc × Session n :=
  match w.d.obj2info obj with
  | some _ => (.error (.DuplicatedObject obj), w)
  | none =>
      let name := gen name_hint w.d.defined_names
      let names := w.d.defined_names.insert name
      let doc_factory : DocCreator := fun _ => .Id (IdDoc.mk name)
      let infos := insertInfo w.d.obj2info obj (VariableInfo.mk doc_factory (some name))
      let def_doc := IdDoc.mk name
      (.ok def_doc,
        { d := { w.d with defined_names := names, obj2info := infos }
          frames := Function.update w.frames frame
            ((w.frames frame).AddExitCallback (.RemoveVar obj)) })

/-- `IRDocsifierNode::Define(obj, frame, doc_factory)`. -/
def DefineWithFactory {n : Nat} (obj : ObjectRef n) (frame : Nat) (doc_factory : DocCreator)
    (w : Session n) : Except (Error n) Unit × Session n :=
  match w.d.obj2info obj with
  | some _ => (.error (.DuplicatedObject obj), w)
  | none =>
      let infos := insertInfo w.d.obj2info obj (VariableInfo.mk doc_factory none)
      (.ok (),
        { d := { w.d with obj2info := infos }
          frames := Function.update w.frames frame
            ((w.frames frame).AddExitCallback (.RemoveVar obj)) })

/-- `IRDocsifierNode::GetVarDoc`, a `const` method: the state is handed back
as it was received. -/
def GetVarDoc {n : Nat} (obj : ObjectRef n) (d : IRDocsifierNode n) :
    Option ExprDoc × IRDocsifierNode n :=
  match d.obj2info obj with
  | none => (none, d)
  | some info => (some (info.creator ()), d)

/-- `IRDocsifierNode::IsVarDefined`. -/
def IsVarDefined {n : Nat} (obj : ObjectRef n) (d : IRDocsifierNode n) : Bool :=
  (d.obj2info obj).isSome

/-- `IRDocsifierNode::RemoveVar`. -/
def RemoveVar {n : Nat} (obj : ObjectRef n) (d : IRDocsifierNode n) :
    Except (Error n) Unit × IRDocsifierNode n :=
  match d.obj2info obj with
  | none => (.error (.NoSuchObject obj), d)
  | some info =>
      let names :=
        match info.name with
        | some name => d.defined_names.filter (fun m => m != name)
        | none => d.defined_names
      (.ok (), { d with defined_names := names, obj2info := Function.update d.obj2info obj none })

/-- Running one exit callback. -/
def ExitCallback.run {n : Nat} : ExitCallback n → IRDocsifierNode n →
    Except (Error n) Unit × IRDocsifierNode n
  | .RemoveVar obj, d => Matx.RemoveVar obj d

/-- Running a list of exit callbacks in order; the first failure propagates
and the remaining callbacks are not run. -/
def runCallbacks {n : Nat} : List (ExitCallback n) → IRDocsifierNode n →
    Except (Error n) Unit × IRDocsifierNode n
  | [], d => (.ok (), d)
  | cb :: rest, d =>
      match cb.run d with
      | (.ok _, d1) => runCallbacks rest d1
      | (.error e, d1) => (.error e, d1)

/-- Modelled from the spec: closing a frame (`run_exit_actions`, declared
outside src/) invokes the registered callbacks in the order added and then
clears the list. -/
def runExitCallbacks {n : Nat} (frame : Nat) (w : Session n) :
    Except (Error n) Unit × Session n :=
  match runCallbacks (w.frames frame).callbacks w.d with
  | (.ok _, d1) => (.ok (), { d := d1, frames := Function.update w.frames frame ⟨[]⟩ })
  | (.error e, d1) => (.error e, { w with d := d1 })

/-! ## The metadata table -/

/-- The document `IdDoc("metadata")[{LiteralDoc::Str(key)}][{LiteralDoc::Int(index)}]`. -/
def metadataDoc (key : String) (index : Int) : ExprDoc :=
  .Index (.Index (.Id (IdDoc.mk "metadata")) [.LiteralStr key]) [.LiteralInt index]

/-- The value of `std::find(array.begin(), array.end(), obj) - array.begin()`:
the position of the first element equal to `obj`, the length of the array when
there is none. -/
def findIndex {α : Type} [DecidableEq α] (array : List α) (obj : α) : Nat :=
  array.indexOf obj

/-- `IRDocsifierNode::AddMetadata`.  The type key of an object
(`obj->GetTypeKey()`) is a parameter.  `metadata[key]` creates an empty bucket
when the key has none; `index` is the position `std::find` stops at, the
length of the bucket when `obj` is not in it (its conversion to `int` is
taken to be exact). -/
def AddMetadata {n : Nat} (type_key : Fin n → String) (obj : ObjectRef n)
    (d : IRDocsifierNode n) : Except (Error n) ExprDoc × IRDocsifierNode n :=
  match obj with
  | none => (.error .NullMetadata, d)
  | some node =>
      let key := type_key node
      let array := (d.metadata key).getD []
      let index := findIndex array obj
      let array1 := if index = array.length then array ++ [obj] else array
      (.ok (metadataDoc key index),
        { d with metadata := Function.update d.metadata key (some array1) })

/-- The bucket of a type key, empty when the key has none. -/
def bucketOf {n : Nat} (d : IRDocsifierNode n) (key : String) : List (ObjectRef n) :=
  (d.metadata key).getD []

/-- What `AddMetadata` does to the bucket it works on. -/
def pushNew {α : Type} [DecidableEq α] (bucket : List α) (x : α) : List α :=
  if findIndex bucket x = bucket.length then bucket ++ [x] else bucket

/-- The state after `AddMetadata` was called on each object of a sequence, in
order. -/
def internAll {n : Nat} (type_key : Fin n → String) (objs : List (Fin n))
    (d : IRDocsifierNode n) : IRDocsifierNode n :=
  objs.foldl (fun st a => (AddMetadata type_key (some a) st).2) d

/-- The number of distinct objects with the type key of `a` in the sequence
`pre` before the first occurrence of `a` (all of them when `a` does not occur
in `pre`). -/
def firstSeenRank {n : Nat} (type_key : Fin n → String) (pre : List (Fin n)) (a : Fin n) : Nat :=
  (((pre.filter (fun b => type_key b == type_key a)).takeWhile (fun b => b != a)).dedup).length

/-! ## Sequences of calls -/

/-- One call of `Define(obj, frame, name_hint)`. -/
structure DefineCall (n : Nat) where
  obj : ObjectRef n
  frame : Nat
  name_hint : String

/-- A sequence of `Define` calls run in order: for each call, what it
returned and the state right after it. -/
def defineAll {n : Nat} (gen : String → List String → String) :
    List (DefineCall n) → Session n → List (Except (Error n) IdDoc × Session n)
  | [], _ => []
  | c :: rest, w =>
      let r := Define gen c.obj c.frame c.name_hint w
      r :: defineAll gen rest r.2

/-- The name of the `IdDoc` a call returned, if it returned. -/
def returnedName {n : Nat} (r : Except (Error n) IdDoc × Session n) : Option String :=
  match r.1 with
  | .ok doc => some doc.name
  | .error _ => none

/-- A call of one of the three operations that change the variable table. -/
inductive Op (n : Nat) where
  | define (obj : ObjectRef n) (frame : Nat) (name_hint : String) : Op n
  | defineWithFactory (obj : ObjectRef n) (frame : Nat) (doc_factory : DocCreator) : Op n
  | removeVar (obj : ObjectRef n) : Op n

/-- The state after one call, whether it returned or failed. -/
def Op.apply {n : Nat} (gen : String → List String → String) : Op n → Session n → Session n
  | .define obj frame name_hint, w => (Define gen obj frame name_hint w).2
  | .defineWithFactory obj frame doc_factory, w => (DefineWithFactory obj frame doc_factory w).2
  | .removeVar obj, w => { w with d := (RemoveVar obj w.d).2 }

/-- The state after a sequence of calls. -/
def runOps {n : Nat} (gen : String → List String → String) (ops : List (Op n))
    (w : Session n) : Session n :=
  ops.foldl (fun st op => op.apply gen st) w

/-- The name-registry invariant: no two bound objects carry the same name,
and `defined_names` holds exactly the names carried by bound objects. -/
structure NameRegistryInv {n : Nat} (d : IRDocsifierNode n) : Prop where
  unique : ∀ (o1 o2 : ObjectRef n) (i1 i2 : VariableInfo) (name : String),
    d.obj2info o1 = some i1 → d.obj2info o2 = some i2 →
    i1.name = some name → i2.name = some name → o1 = o2
  exact : ∀ name : String, name ∈ d.defined_names ↔
    ∃ (o : ObjectRef n) (i : VariableInfo), d.obj2info o = some i ∧ i.name = some name

/-- The object a call is about. -/
def Op.target {n : Nat} : Op n → ObjectRef n
  | .define obj _ _ => obj
  | .defineWithFactory obj _ _ => obj
  | .removeVar obj => obj

/-! ## The regex builtin registrations of `hlo_builtin_regex.cc` -/

/-- One call in the chain that follows `MATXSCRIPT_IR_DEFINE_HLO_METHOD(...)`. -/
inductive RegCall where
  | set_num_inputs (n : Int) : RegCall
  | add_argument (name type description : String) : RegCall
deriving DecidableEq

/-- A statement `MATXSCRIPT_IR_DEFINE_HLO_METHOD(Prefix, OpName, Method)` with
the chain of calls made on it, in source order. -/
structure MethodRegistration where
  family : String
  op_name : String
  method : String
  calls : List RegCall

/-- The registration of `regex.split` (source lines 32-35). -/
def regex_split : MethodRegistration :=
  { family := "regex", op_name := "split", method := "split"
    calls :=
      [.set_num_inputs 2,
       .add_argument "self" "matx.Regex" "",
       .add_argument "input" "bytes_view|unicode_view|any_view" ""] }

/-- The registration of `regex.match` (source lines 36-40). -/
def regex_match : MethodRegistration :=
  { family := "regex", op_name := "match", method := "match"
    calls :=
      [.set_num_inputs 2,
       .add_argument "self" "matx.Regex" "",
       .add_argument "input" "bytes_view|unicode_view|any_view" "",
       .add_argument "offset" "int" ""] }

/-- The registration of `regex.replace` (source lines 41-45). -/
def regex_replace : MethodRegistration :=
  { family := "regex", op_name := "replace", method := "replace"
    calls :=
      [.set_num_inputs 3,
       .add_argument "self" "matx.Regex" "",
       .add_argument "input" "bytes_view|unicode_view|any_view" "",
       .add_argument "repl" "bytes_view|unicode_view|any_view" ""] }

/-- The number given to the last `set_num_inputs` call of a chain, if any. -/
def declaredNumInputs : List RegCall → Option Int
  | [] => none
  | .set_num_inputs k :: rest =>
      match declaredNumInputs rest with
      | some later => some later
      | none => some k
  | .add_argument _ _ _ :: rest => declaredNumInputs rest

/-- The number of `add_argument` calls of a chain. -/
def declaredArguments : List RegCall → Nat
  | [] => 0
  | .set_num_inputs _ :: rest => declaredArguments rest
  | .add_argument _ _ _ :: rest => declaredArguments rest + 1

/-! ## The shrink step on its own -/

/-- The longest common prefix of two sequences, as the spec words it. -/
def longestCommonPrefix {α : Type} [DecidableEq α] : List α → List α → List α
  | x :: xs, y :: ys => if x = y then x :: longestCommonPrefix xs ys else []
  | _, _ => []

/-- A call binding `obj` with `frame`: `Define(obj, frame, doc_factory)` when
a factory is given, `Define(obj, frame, name_hint)` otherwise. -/
def bindOp {n : Nat} (doc_factory : Option DocCreator) (obj : ObjectRef n) (frame : Nat)
    (name_hint : String) : Op n :=
  match doc_factory with
  | none => .define obj frame name_hint
  | some factory => .defineWithFactory obj frame factory

/-! ## Example sessions -/

/-- A session over three objects with nothing bound and no callbacks. -/
def session0 : Session 3 := ⟨IRDocsifierNode.empty 3, fun _ => ⟨[]⟩⟩

/-- After `Define(object 0, frame 7, "x")`. -/
def session1 : Session 3 := (Define GenerateUniqueName (some 0) 7 "x" session0).2

/-- After a further `Define(object 1, frame 7, "x")`. -/
def session2 : Session 3 := (Define GenerateUniqueName (some 1) 7 "x" session1).2

/-- After the exit callbacks of frame 7 have run. -/
def session3 : Session 3 := (runExitCallbacks 7 session2).2

/-- Two `Define` calls on the objects 0 and 1, both with the hint `"x"` and
frame 7. -/
def sameHintCalls : List (DefineCall 3) :=
  [DefineCall.mk (some 0) 7 "x", DefineCall.mk (some 1) 7 "x"]

/-- A run over three objects: two definitions with the hint `"x"`, a
repeated definition (fails), a removal, a repeated removal (fails) and a
definition with a factory. -/
def exampleOps : List (Op 3) :=
  [.define (some 0) 7 "x", .define (some 1) 7 "x", .define (some 0) 8 "y",
   .removeVar (some 0), .removeVar (some 0),
   .defineWithFactory (some 2) 8 (fun _ => .LiteralInt 0)]

/-- Calls on the objects 1 and 2 only: a definition, its removal and a
definition with a factory. -/
def otherOps : List (Op 3) :=
  [.define (some 1) 7 "x", .removeVar (some 1),
   .defineWithFactory (some 2) 8 (fun _ => .LiteralInt 0)]

/-- Type keys for three objects: objects 0 and 2 are `"Var"`, object 1 is
`"Buffer"`. -/
def exampleTypeKey : Fin 3 → String := fun i =>
  match i with
  | 0 => "Var"
  | 1 => "Buffer"
  | 2 => "Var"

/-! ## Example heaps -/

/-- Objects `0 = R`, `1 = F1`, `2 = F2`, `3 = V`; `R` holds `F1` and `F2`,
each of which holds `V`. -/
def diamondHeap : Heap 4 := fun i =>
  match i with
  | 0 => .ArrayNode [some 1, some 2]
  | 1 => .Reflected [.scalar, .objectRef (some 3)]
  | 2 => .Reflected [.objectRef (some 3)]
  | 3 => .Reflected []

/-- Only object `3` is a variable. -/
def diamondIsVar : ObjectRef 4 → Bool := fun p => p == some 3

/-- Objects `0 = A`, `1 = B`, `2 = C`, `3 = D`, `4 = v`: `A` holds `B`, `B`
holds `C` and `D`, and both `C` and `D` hold `v`, so `v` is reachable along
`[A, B, C]` and along `[A, B, D]`. -/
def forkHeap : Heap 5 := fun i =>
  match i with
  | 0 => .Reflected [.objectRef (some 1)]
  | 1 => .ArrayNode [some 2, some 3]
  | 2 => .Reflected [.objectRef (some 4)]
  | 3 => .Reflected [.objectRef (some 4)]
  | 4 => .Reflected []

/-- Only object `4` is a variable. -/
def forkIsVar : ObjectRef 5 → Bool := fun p => p == some 4

/-- Objects `0 = A`, `1 = B`, `2 = C`, `3 = v` in a chain: the only path to
`v` has the ancestors `[A, B, C]`. -/
def chainHeap : Heap 4 := fun i =>
  match i with
  | 0 => .Reflected [.objectRef (some 1)]
  | 1 => .ArrayNode [some 2]
  | 2 => .MapNode [(none, some 3)]
  | 3 => .Reflected [.scalar]

/-- Only object `3` is a variable. -/
def chainIsVar : ObjectRef 4 → Bool := fun p => p == some 3

/-- Objects `0 = X` and `1 = Y` referencing each other; object `2` is not
referenced by either. -/
def cycleHeap : Heap 3 := fun i =>
  match i with
  | 0 => .Reflected [.objectRef (some 1)]
  | 1 => .Reflected [.objectRef (some 0)]
  | 2 => .Reflected [.objectRef (some 0)]

/-! ## Reachability and paths -/

/-- The object `p` holds the reference `c` as one of its children. -/
def Edge {n : Nat} (heap : Heap n) (p c : ObjectRef n) : Prop :=
  ∃ a, p = some a ∧ c ∈ childRefs (heap a)

/-- The reference `p` is reachable from `root` through child references
(`root` itself included). -/
def Reachable {n : Nat} (heap : Heap n) (root p : ObjectRef n) : Prop :=
  Relation.ReflTransGen (Edge heap) root p

/-- The list `path` is a simple path of objects from `root` down to `a`: it
starts at `root`, ends at `a`, every element holds the next one as a child,
and no object occurs twice. -/
structure PathTo {n : Nat} (heap : Heap n) (root : ObjectRef n) (path : List (Fin n))
    (a : Fin n) : Prop where
  head : path.head? = root
  last : path.getLast? = some a
  chain : List.Chain' (fun x y => some y ∈ childRefs (heap x)) path
  nodup : path.Nodup

/-- The reference `value` may be passed to `Visit` in state `s`: it is the
root when the stack is empty and a child of the stack top otherwise. -/
def Callable {n : Nat} (heap : Heap n) (root : ObjectRef n) (s : Visitor n)
    (value : ObjectRef n) : Prop :=
  match s.stack_.getLast? with
  | none => value = root
  | some top => value ∈ childRefs (heap top)

/-- What holds of the visitor state throughout the walk. -/
structure WalkInv {n : Nat} (heap : Heap n) (is_var : ObjectRef n → Bool)
    (root : ObjectRef n) (s : Visitor n) : Prop where
  closed : ∀ a, some a ∈ s.visited → a ∈ s.stack_ ∨ ∀ c ∈ childRefs (heap a), c ∈ s.visited
  reach : ∀ p ∈ s.visited, Reachable heap root p
  stack_visited : ∀ a ∈ s.stack_, some a ∈ s.visited
  stack_nodup : s.stack_.Nodup
  stack_chain : List.Chain' (fun x y => some y ∈ childRefs (heap x)) s.stack_
  stack_head : s.stack_ ≠ [] → s.stack_.head? = root
  entered_count : ∀ a, s.entered.count a = if some a ∈ s.visited then 1 else 0
  keys : ∀ p, (s.common_prefix p).isSome = true ↔
    ∃ a, p = some a ∧ some a ∈ s.visited ∧ a ∉ s.stack_ ∧ is_var (some a) = true
  entries : ∀ p path, s.common_prefix p = some path → ∃ a, p = some a ∧ PathTo heap root path a

/-- Number of references not yet in the visited set. -/
def unvisited {n : Nat} (s : Visitor n) : Nat :=
  (Finset.univ.filter (fun p : ObjectRef n => p ∉ s.visited)).card

/-- The state in which the children of `obj` are enumerated: `obj` is in the
visited set and on top of the stack. -/
def enter {n : Nat} (obj : Fin n) (s : Visitor n) : Visitor n :=
  { s with visited := some obj :: s.visited, stack_ := s.stack_ ++ [obj],
           entered := obj :: s.entered,
           discovered := (obj, s.stack_ ++ [obj]) :: s.discovered }

/-- The state in which `Visit` returns, from the state `s3` reached after
the children were enumerated: `HandleVar` if the object is a variable, then
`stack_.pop_back()`. -/
def leave {n : Nat} (is_var : ObjectRef n → Bool) (obj : Fin n) (s3 : Visitor n) : Visitor n :=
  let s4 := if is_var (some obj) then HandleVar obj s3 else s3
  { s4 with stack_ := s4.stack_.dropLast }

/-- What a returning call of `Visit` (or a run of calls) guarantees about the
state `s'` it returns in, from the state `s` it was entered in. -/
structure VisitPost {n : Nat} (heap : Heap n) (is_var : ObjectRef n → Bool)
    (root : ObjectRef n) (s t : Visitor n) : Prop where
  inv : WalkInv heap is_var root t
  stack : t.stack_ = s.stack_
  mono : ∀ p ∈ s.visited, p ∈ t.visited
  keep : ∀ p path, s.common_prefix p = some path → t.common_prefix p = some path

/-- What holds of the ghost logs throughout the walk. -/
structure LogInv {n : Nat} (s : Visitor n) : Prop where
  disc_nodup : (s.discovered.map Prod.fst).Nodup
  disc_visited : ∀ e ∈ s.discovered, some e.1 ∈ s.visited
  hand_nodup : (s.handled.map Prod.fst).Nodup
  hand_false : ∀ e ∈ s.handled, e.2 = false
  hand_keys : ∀ a, a ∈ s.handled.map Prod.fst → (s.common_prefix (some a)).isSome = true
  keys_hand : ∀ a, (s.common_prefix (some a)).isSome = true → a ∈ s.handled.map Prod.fst
  entry_disc : ∀ a path, s.common_prefix (some a) = some path → (a, path) ∈ s.discovered

/-- What the loop of `HandleVar` leaves in `a`, by recursion on the two
sequences: cut at the first position where they differ, unchanged when one of
them ends before any difference. -/
def shrinkResult {α : Type} [DecidableEq α] : List α → List α → List α
  | x :: xs, y :: ys => if x ≠ y then [] else x :: shrinkResult xs ys
  | xs, [] => xs
  | [], _ :: _ => []

/-! ## Unfolding `Visit` -/

theorem Visit_of_visited {n : Nat} (heap : Heap n) (is_var : ObjectRef n → Bool) (fuel : Nat)
    (value : ObjectRef n) (s : Visitor n) (h : value ∈ s.visited) :
    Visit heap is_var (fuel + 1) value s = some s := by
  simp [Visit, h]

theorem Visit_null {n : Nat} (heap : Heap n) (is_var : ObjectRef n → Bool) (fuel : Nat)
    (s : Visitor n) (h : none ∉ s.visited) :
    Visit heap is_var (fuel + 1) none s = some { s with visited := none :: s.visited } := by
  simp [Visit, h]

theorem Visit_obj {n : Nat} (heap : Heap n) (is_var : ObjectRef n → Bool) (fuel : Nat)
    (obj : Fin n) (s : Visitor n) (h : some obj ∉ s.visited) :
    Visit heap is_var (fuel + 1) (some obj) s =
      ((childRefs (heap obj)).foldlM (fun st c => Visit heap is_var fuel c st)
          { s with visited := some obj :: s.visited, stack_ := s.stack_ ++ [obj],
                   entered := obj :: s.entered,
                   discovered := (obj, s.stack_ ++ [obj]) :: s.discovered }).map
        (fun s3 =>
          let s4 := if is_var (some obj) then HandleVar obj s3 else s3
          { s4 with stack_ := s4.stack_.dropLast }) := by
  rw [Visit]
  simp only [h, if_false]
  cases (childRefs (heap obj)).foldlM (fun st c => Visit heap is_var fuel c st)
      { s with visited := some obj :: s.visited, stack_ := s.stack_ ++ [obj],
               entered := obj :: s.entered,
               discovered := (obj, s.stack_ ++ [obj]) :: s.discovered } <;> rfl


/-! ## The invariant is preserved -/

theorem WalkInv_init {n : Nat} (heap : Heap n) (is_var : ObjectRef n → Bool)
    (root : ObjectRef n) : WalkInv heap is_var root (Visitor.init n) where
  closed := by intro a h; simp [Visitor.init] at h
  reach := by intro p h; simp [Visitor.init] at h
  stack_visited := by intro a h; simp [Visitor.init] at h
  stack_nodup := by simp [Visitor.init]
  stack_chain := by simp [Visitor.init]
  stack_head := by intro h; simp [Visitor.init] at h
  entered_count := by intro a; simp [Visitor.init]
  keys := by intro p; simp [Visitor.init]
  entries := by intro p path h; simp [Visitor.init] at h

theorem Callable.reachable {n : Nat} {heap : Heap n} {is_var : ObjectRef n → Bool}
    {root : ObjectRef n} {s : Visitor n} {value : ObjectRef n}
    (hinv : WalkInv heap is_var root s) (hc : Callable heap root s value) :
    Reachable heap root value := by
  unfold Callable at hc
  cases hl : s.stack_.getLast? with
  | none =>
      rw [hl] at hc
      subst hc
      exact Relation.ReflTransGen.refl
  | some top =>
      rw [hl] at hc
      have htop : top ∈ s.stack_ := List.mem_of_getLast?_eq_some hl
      exact Relation.ReflTransGen.tail (hinv.reach _ (hinv.stack_visited _ htop)) ⟨top, rfl, hc⟩

theorem WalkInv_null {n : Nat} {heap : Heap n} {is_var : ObjectRef n → Bool}
    {root : ObjectRef n} {s : Visitor n} (hinv : WalkInv heap is_var root s)
    (hc : Callable heap root s none) :
    WalkInv heap is_var root { s with visited := none :: s.visited } where
  closed := by
    intro a h
    simp only [List.mem_cons] at h
    rcases h with h | h
    · cases h
    · rcases hinv.closed a h with h1 | h1
      · exact Or.inl h1
      · exact Or.inr (fun c hcm => List.mem_cons_of_mem _ (h1 c hcm))
  reach := by
    intro p h
    simp only [List.mem_cons] at h
    rcases h with h | h
    · subst h; exact hc.reachable hinv
    · exact hinv.reach p h
  stack_visited := fun a h => List.mem_cons_of_mem _ (hinv.stack_visited a h)
  stack_nodup := hinv.stack_nodup
  stack_chain := hinv.stack_chain
  stack_head := hinv.stack_head
  entered_count := by
    intro a
    have h := hinv.entered_count a
    simp only [List.mem_cons, reduceCtorEq, false_or]
    exact h
  keys := by
    intro p
    rw [hinv.keys p]
    simp only [List.mem_cons, reduceCtorEq, false_or]
  entries := hinv.entries

theorem WalkInv_enter {n : Nat} {heap : Heap n} {is_var : ObjectRef n → Bool}
    {root : ObjectRef n} {s : Visitor n} {obj : Fin n} (hinv : WalkInv heap is_var root s)
    (hnv : some obj ∉ s.visited) (hc : Callable heap root s (some obj)) :
    WalkInv heap is_var root
      { s with visited := some obj :: s.visited, stack_ := s.stack_ ++ [obj],
               entered := obj :: s.entered,
               discovered := (obj, s.stack_ ++ [obj]) :: s.discovered } where
  closed := by
    intro a h
    simp only [List.mem_cons, Option.some.injEq] at h
    rcases h with h | h
    · subst h; exact Or.inl (by simp)
    · rcases hinv.closed a h with h1 | h1
      · exact Or.inl (List.mem_append_left _ h1)
      · exact Or.inr (fun c hcm => List.mem_cons_of_mem _ (h1 c hcm))
  reach := by
    intro p h
    simp only [List.mem_cons] at h
    rcases h with h | h
    · subst h; exact hc.reachable hinv
    · exact hinv.reach p h
  stack_visited := by
    intro a h
    simp only [List.mem_append, List.mem_singleton] at h
    rcases h with h | h
    · exact List.mem_cons_of_mem _ (hinv.stack_visited a h)
    · subst h; exact List.mem_cons_self _ _
  stack_nodup := by
    have hns : obj ∉ s.stack_ := fun h => hnv (hinv.stack_visited obj h)
    exact List.Nodup.append hinv.stack_nodup (List.nodup_singleton obj)
      (by
        intro a ha hb
        simp only [List.mem_singleton] at hb
        exact hns (hb ▸ ha))
  stack_chain := by
    refine List.Chain'.append hinv.stack_chain (List.chain'_singleton obj) ?_
    intro x hx y hy
    simp only [List.head?_cons, Option.mem_def, Option.some.injEq] at hy
    subst hy
    have hx' : s.stack_.getLast? = some x := hx
    unfold Callable at hc
    rw [hx'] at hc
    exact hc
  stack_head := by
    intro _
    cases hs : s.stack_ with
    | nil =>
        unfold Callable at hc
        simp only [hs, List.getLast?_nil] at hc
        simp [hc]
    | cons x xs =>
        have := hinv.stack_head (by simp [hs])
        simpa [hs] using this
  entered_count := by
    intro a
    have h := hinv.entered_count a
    by_cases hao : a = obj
    · subst hao
      simp only [hnv, if_false] at h
      simp [h]
    · have hne : ¬ (obj = a) := fun e => hao e.symm
      have hne2 : ¬ ((obj == a) = true) := by simpa using hne
      simp only [List.mem_cons, Option.some.injEq, hao, false_or]
      rw [List.count_cons, h]
      simp [hne2]
  keys := by
    intro p
    rw [hinv.keys p]
    constructor
    · rintro ⟨a, rfl, hv, hs, hvar⟩
      have hao : a ≠ obj := fun e => hnv (e ▸ hv)
      exact ⟨a, rfl, List.mem_cons_of_mem _ hv, by simp [hs, hao], hvar⟩
    · rintro ⟨a, rfl, hv, hs, hvar⟩
      simp only [List.mem_append, List.mem_singleton, not_or] at hs
      simp only [List.mem_cons, Option.some.injEq] at hv
      rcases hv with hv | hv
      · exact absurd hv hs.2
      · exact ⟨a, rfl, hv, hs.1, hvar⟩
  entries := hinv.entries

theorem HandleVar_fresh {n : Nat} (var : Fin n) (s : Visitor n)
    (h : s.common_prefix (some var) = none) :
    HandleVar var s =
      { s with common_prefix := Function.update s.common_prefix (some var) (some s.stack_)
               handled := (var, false) :: s.handled } := by
  unfold HandleVar
  rw [h]


theorem leave_eq {n : Nat} {heap : Heap n} {is_var : ObjectRef n → Bool}
    {root : ObjectRef n} {s3 : Visitor n} {obj : Fin n} {st : List (Fin n)}
    (hinv : WalkInv heap is_var root s3) (hst : s3.stack_ = st ++ [obj]) :
    leave is_var obj s3 =
      { s3 with
        stack_ := st
        common_prefix :=
          if is_var (some obj) = true then
            Function.update s3.common_prefix (some obj) (some (st ++ [obj]))
          else s3.common_prefix
        handled := if is_var (some obj) = true then (obj, false) :: s3.handled else s3.handled
      } := by
  have hnone : s3.common_prefix (some obj) = none := by
    cases hcp : s3.common_prefix (some obj) with
    | none => rfl
    | some path =>
        have hk := (hinv.keys (some obj)).1 (by simp [hcp])
        obtain ⟨a, ha, _, hns, _⟩ := hk
        simp only [Option.some.injEq] at ha
        subst ha
        exact absurd (by simp [hst]) hns
  unfold leave
  by_cases hv : is_var (some obj) = true
  · simp only [hv, if_true, HandleVar_fresh obj s3 hnone, hst, List.dropLast_concat]
  · rw [if_neg hv, if_neg hv, if_neg hv]
    show ({ s3 with stack_ := s3.stack_.dropLast } : Visitor n) = _
    rw [hst, List.dropLast_concat]

theorem WalkInv_leave {n : Nat} {heap : Heap n} {is_var : ObjectRef n → Bool}
    {root : ObjectRef n} {s3 : Visitor n} {obj : Fin n} {st : List (Fin n)}
    (hinv : WalkInv heap is_var root s3) (hst : s3.stack_ = st ++ [obj])
    (hch : ∀ c ∈ childRefs (heap obj), c ∈ s3.visited) :
    WalkInv heap is_var root (leave is_var obj s3) := by
  rw [leave_eq hinv hst]
  have hobjv : some obj ∈ s3.visited := hinv.stack_visited obj (by simp [hst])
  have hnd : (st ++ [obj]).Nodup := hst ▸ hinv.stack_nodup
  have hobjst : obj ∉ st := by
    intro h
    have := (List.nodup_append.1 hnd).2.2
    exact this h (List.mem_singleton_self obj)
  have hpath : PathTo heap root (st ++ [obj]) obj :=
    { head := by
        have := hinv.stack_head (by simp [hst])
        rwa [hst] at this
      last := by simp
      chain := hst ▸ hinv.stack_chain
      nodup := hnd }
  constructor
  · intro a h
    rcases hinv.closed a h with h1 | h1
    · rw [hst] at h1
      simp only [List.mem_append, List.mem_singleton] at h1
      rcases h1 with h1 | h1
      · exact Or.inl h1
      · subst h1; exact Or.inr hch
    · exact Or.inr h1
  · exact hinv.reach
  · intro a h
    exact hinv.stack_visited a (by simp [hst, h])
  · exact (List.nodup_append.1 hnd).1
  · have := hinv.stack_chain
    rw [hst] at this
    exact this.left_of_append
  · intro hne
    have := hinv.stack_head (by simp [hst])
    rw [hst] at this
    cases st with
    | nil => exact absurd rfl hne
    | cons x xs => simpa using this
  · exact hinv.entered_count
  · intro p
    show ((if is_var (some obj) = true then
            Function.update s3.common_prefix (some obj) (some (st ++ [obj]))
          else s3.common_prefix) p).isSome = true ↔
        ∃ a, p = some a ∧ some a ∈ s3.visited ∧ a ∉ st ∧ is_var (some a) = true
    have hk := hinv.keys p
    rw [hst] at hk
    by_cases hp : p = some obj
    · subst hp
      by_cases hv : is_var (some obj) = true
      · simp only [hv, if_true, Function.update_same, Option.isSome_some, true_iff]
        exact ⟨obj, rfl, hobjv, hobjst, hv⟩
      · rw [if_neg hv, hk]
        constructor
        · rintro ⟨a, ha, _, _, hvar⟩
          simp only [Option.some.injEq] at ha
          subst ha
          exact absurd hvar hv
        · rintro ⟨a, ha, _, _, hvar⟩
          simp only [Option.some.injEq] at ha
          subst ha
          exact absurd hvar hv
    · have hcp : (if is_var (some obj) = true then
            Function.update s3.common_prefix (some obj) (some (st ++ [obj]))
          else s3.common_prefix) p = s3.common_prefix p := by
        split
        · exact Function.update_noteq hp _ _
        · rfl
      rw [hcp, hk]
      constructor
      · rintro ⟨a, rfl, hv, hs, hvar⟩
        exact ⟨a, rfl, hv, fun h => hs (List.mem_append_left _ h), hvar⟩
      · rintro ⟨a, rfl, hv, hs, hvar⟩
        refine ⟨a, rfl, hv, ?_, hvar⟩
        simp only [List.mem_append, List.mem_singleton, not_or]
        exact ⟨hs, fun e => hp (by rw [e])⟩
  · intro p path hpp
    have hpp' : (if is_var (some obj) = true then
            Function.update s3.common_prefix (some obj) (some (st ++ [obj]))
          else s3.common_prefix) p = some path := hpp
    by_cases hp : p = some obj
    · subst hp
      by_cases hv : is_var (some obj) = true
      · simp only [hv, if_true, Function.update_same, Option.some.injEq] at hpp'
        subst hpp'
        exact ⟨obj, rfl, hpath⟩
      · rw [if_neg hv] at hpp'
        exact hinv.entries _ _ hpp'
    · have hcp : (if is_var (some obj) = true then
            Function.update s3.common_prefix (some obj) (some (st ++ [obj]))
          else s3.common_prefix) p = s3.common_prefix p := by
        split
        · exact Function.update_noteq hp _ _
        · rfl
      rw [hcp] at hpp'
      exact hinv.entries _ _ hpp'


theorem leave_fields {n : Nat} {heap : Heap n} {is_var : ObjectRef n → Bool}
    {root : ObjectRef n} {s3 : Visitor n} {obj : Fin n} {st : List (Fin n)}
    (hinv : WalkInv heap is_var root s3) (hst : s3.stack_ = st ++ [obj]) :
    (leave is_var obj s3).stack_ = st ∧ (leave is_var obj s3).visited = s3.visited ∧
    (leave is_var obj s3).entered = s3.entered ∧
    (∀ p path, s3.common_prefix p = some path →
      Visitor.common_prefix (leave is_var obj s3) p = some path) := by
  rw [leave_eq hinv hst]
  refine ⟨rfl, rfl, rfl, ?_⟩
  intro p path hp
  show (if is_var (some obj) = true then
          Function.update s3.common_prefix (some obj) (some (st ++ [obj]))
        else s3.common_prefix) p = some path
  split
  · have hne : p ≠ some obj := by
      intro e
      subst e
      have hk := (hinv.keys (some obj)).1 (by simp [hp])
      obtain ⟨a, ha, _, hns, _⟩ := hk
      simp only [Option.some.injEq] at ha
      subst ha
      exact hns (by simp [hst])
    rw [Function.update_noteq hne]
    exact hp
  · exact hp

theorem VisitPost.refl {n : Nat} {heap : Heap n} {is_var : ObjectRef n → Bool}
    {root : ObjectRef n} {s : Visitor n} (h : WalkInv heap is_var root s) :
    VisitPost heap is_var root s s :=
  ⟨h, rfl, fun _ hp => hp, fun _ _ hp => hp⟩

theorem VisitPost.trans {n : Nat} {heap : Heap n} {is_var : ObjectRef n → Bool}
    {root : ObjectRef n} {s s1 s2 : Visitor n} (h1 : VisitPost heap is_var root s s1)
    (h2 : VisitPost heap is_var root s1 s2) : VisitPost heap is_var root s s2 :=
  ⟨h2.inv, h2.stack.trans h1.stack, fun p hp => h2.mono p (h1.mono p hp),
    fun p path hp => h2.keep p path (h1.keep p path hp)⟩

theorem Callable_of_stack_eq {n : Nat} {heap : Heap n} {root : ObjectRef n}
    {s s' : Visitor n} {c : ObjectRef n} (h : s'.stack_ = s.stack_)
    (hc : Callable heap root s c) : Callable heap root s' c := by
  unfold Callable at hc ⊢
  rw [h]
  exact hc

theorem foldlM_post {n : Nat} {heap : Heap n} {is_var : ObjectRef n → Bool}
    {root : ObjectRef n} (f : Visitor n → ObjectRef n → Option (Visitor n))
    (hf : ∀ c s s', f s c = some s' → WalkInv heap is_var root s → Callable heap root s c →
      VisitPost heap is_var root s s' ∧ c ∈ s'.visited) :
    ∀ (cs : List (ObjectRef n)) (s s' : Visitor n), cs.foldlM f s = some s' →
      WalkInv heap is_var root s → (∀ c ∈ cs, Callable heap root s c) →
      VisitPost heap is_var root s s' ∧ ∀ c ∈ cs, c ∈ s'.visited := by
  intro cs
  induction cs with
  | nil =>
      intro s s' h hinv _
      simp only [List.foldlM_nil, Option.pure_def, Option.some.injEq] at h
      subst h
      exact ⟨VisitPost.refl hinv, by simp⟩
  | cons c cs ih =>
      intro s s' h hinv hcall
      simp only [List.foldlM_cons, Option.bind_eq_bind, Option.bind_eq_some] at h
      obtain ⟨s1, h1, h2⟩ := h
      obtain ⟨p1, hc1⟩ := hf c s s1 h1 hinv (hcall c (List.mem_cons_self _ _))
      have hcall' : ∀ c' ∈ cs, Callable heap root s1 c' := fun c' hc' =>
        Callable_of_stack_eq p1.stack (hcall c' (List.mem_cons_of_mem _ hc'))
      obtain ⟨p2, hc2⟩ := ih s1 s' h2 p1.inv hcall'
      refine ⟨p1.trans p2, ?_⟩
      intro c' hc'
      simp only [List.mem_cons] at hc'
      rcases hc' with hc' | hc'
      · subst hc'; exact p2.mono _ hc1
      · exact hc2 c' hc'

theorem Visit_post {n : Nat} (heap : Heap n) (is_var : ObjectRef n → Bool)
    (root : ObjectRef n) :
    ∀ (fuel : Nat) (value : ObjectRef n) (s s' : Visitor n),
      Visit heap is_var fuel value s = some s' → WalkInv heap is_var root s →
      Callable heap root s value →
      VisitPost heap is_var root s s' ∧ value ∈ s'.visited := by
  intro fuel
  induction fuel with
  | zero =>
      intro value s s' h
      simp [Visit] at h
  | succ fuel ih =>
      intro value s s' h hinv hcall
      by_cases hv : value ∈ s.visited
      · rw [Visit_of_visited heap is_var fuel value s hv] at h
        simp only [Option.some.injEq] at h
        subst h
        exact ⟨VisitPost.refl hinv, hv⟩
      · cases value with
        | none =>
            rw [Visit_null heap is_var fuel s hv] at h
            simp only [Option.some.injEq] at h
            subst h
            exact ⟨⟨WalkInv_null hinv hcall, rfl, fun p hp => List.mem_cons_of_mem _ hp,
              fun _ _ hp => hp⟩, List.mem_cons_self _ _⟩
        | some obj =>
            rw [Visit_obj heap is_var fuel obj s hv] at h
            simp only [Option.map_eq_some'] at h
            obtain ⟨s3, hfold, hleave⟩ := h
            have hleave' : leave is_var obj s3 = s' := hleave
            have hinv2 := WalkInv_enter hinv hv hcall
            have hcall2 : ∀ c ∈ childRefs (heap obj), Callable heap root
                { s with visited := some obj :: s.visited, stack_ := s.stack_ ++ [obj],
                         entered := obj :: s.entered,
                         discovered := (obj, s.stack_ ++ [obj]) :: s.discovered } c := by
              intro c hc
              unfold Callable
              simp only [List.getLast?_concat]
              exact hc
            obtain ⟨p3, hch⟩ := foldlM_post (fun st c => Visit heap is_var fuel c st)
              (fun c s s' hs => ih c s s' hs) _ _ _ hfold hinv2 hcall2
            have hst : s3.stack_ = s.stack_ ++ [obj] := p3.stack
            obtain ⟨l1, l2, _, l4⟩ := leave_fields p3.inv hst
            subst hleave'
            refine ⟨⟨WalkInv_leave p3.inv hst hch, l1, ?_, ?_⟩, ?_⟩
            · intro p hp
              rw [l2]
              exact p3.mono p (List.mem_cons_of_mem _ hp)
            · intro p path hp
              exact l4 p path (p3.keep p path hp)
            · rw [l2]
              exact p3.mono _ (List.mem_cons_self _ _)


/-! ## Termination: the recursion bound is never hit -/

theorem unvisited_le_of_subset {n : Nat} (s s' : Visitor n)
    (h : ∀ p ∈ s.visited, p ∈ s'.visited) : unvisited s' ≤ unvisited s := by
  unfold unvisited
  apply Finset.card_le_card
  intro p hp
  simp only [Finset.mem_filter, Finset.mem_univ, true_and] at hp ⊢
  exact fun hm => hp (h p hm)

theorem unvisited_lt_of_cons {n : Nat} (s s' : Visitor n) {value : ObjectRef n}
    (hv : value ∉ s.visited) (h : s'.visited = value :: s.visited) :
    unvisited s' < unvisited s := by
  unfold unvisited
  apply Finset.card_lt_card
  rw [Finset.ssubset_iff_of_subset]
  · refine ⟨value, ?_, ?_⟩
    · simp [hv]
    · simp [h]
  · intro p hp
    simp only [Finset.mem_filter, Finset.mem_univ, true_and, h, List.mem_cons, not_or] at hp ⊢
    exact hp.2

theorem unvisited_init (n : Nat) : unvisited (Visitor.init n) = n + 1 := by
  simp [unvisited, Visitor.init]

theorem foldlM_total {n : Nat} (f : Visitor n → ObjectRef n → Option (Visitor n))
    (base : List (ObjectRef n))
    (hf : ∀ c s, (∀ p ∈ base, p ∈ s.visited) →
      ∃ s', f s c = some s' ∧ ∀ p ∈ s.visited, p ∈ s'.visited) :
    ∀ (cs : List (ObjectRef n)) (s : Visitor n), (∀ p ∈ base, p ∈ s.visited) →
      ∃ s', cs.foldlM f s = some s' ∧ ∀ p ∈ s.visited, p ∈ s'.visited := by
  intro cs
  induction cs with
  | nil =>
      intro s _
      exact ⟨s, rfl, fun _ hp => hp⟩
  | cons c cs ih =>
      intro s hb
      obtain ⟨s1, h1, m1⟩ := hf c s hb
      obtain ⟨s2, h2, m2⟩ := ih s1 (fun p hp => m1 p (hb p hp))
      refine ⟨s2, ?_, fun p hp => m2 p (m1 p hp)⟩
      simp only [List.foldlM_cons, Option.bind_eq_bind, h1, Option.some_bind]
      exact h2

theorem Visit_total {n : Nat} (heap : Heap n) (is_var : ObjectRef n → Bool) :
    ∀ (fuel : Nat) (value : ObjectRef n) (s : Visitor n), unvisited s < fuel →
      ∃ s', Visit heap is_var fuel value s = some s' ∧ ∀ p ∈ s.visited, p ∈ s'.visited := by
  intro fuel
  induction fuel with
  | zero => intro value s h; exact absurd h (Nat.not_lt_zero _)
  | succ fuel ih =>
      intro value s hlt
      by_cases hv : value ∈ s.visited
      · exact ⟨s, Visit_of_visited heap is_var fuel value s hv, fun _ hp => hp⟩
      · cases value with
        | none =>
            exact ⟨_, Visit_null heap is_var fuel s hv, fun p hp => List.mem_cons_of_mem _ hp⟩
        | some obj =>
            rw [Visit_obj heap is_var fuel obj s hv]
            have hlt2 : unvisited (enter obj s) < fuel := by
              have := unvisited_lt_of_cons s (enter obj s) hv rfl
              omega
            obtain ⟨s3, h3, m3⟩ := foldlM_total (fun st c => Visit heap is_var fuel c st)
              (some obj :: s.visited)
              (fun c st hb => ih c st (lt_of_le_of_lt
                (unvisited_le_of_subset (enter obj s) st hb) hlt2))
              (childRefs (heap obj)) (enter obj s) (fun p hp => hp)
            have h3' : List.foldlM (fun st c => Visit heap is_var fuel c st)
                { s with visited := some obj :: s.visited, stack_ := s.stack_ ++ [obj],
                         entered := obj :: s.entered,
                         discovered := (obj, s.stack_ ++ [obj]) :: s.discovered } (childRefs (heap obj)) = some s3 := h3
            rw [h3']
            refine ⟨_, rfl, ?_⟩
            intro p hp
            have hp3 : p ∈ s3.visited := m3 p (List.mem_cons_of_mem _ hp)
            show p ∈ (leave is_var obj s3).visited
            unfold leave
            by_cases hvar : is_var (some obj) = true
            · simp only [hvar, if_true]
              unfold HandleVar
              cases s3.common_prefix (some obj) <;> exact hp3
            · rw [if_neg hvar]
              exact hp3

theorem foldlM_mono_fun {n : Nat} (f g : Visitor n → ObjectRef n → Option (Visitor n))
    (hfg : ∀ c s s', f s c = some s' → g s c = some s') :
    ∀ (cs : List (ObjectRef n)) (s s' : Visitor n),
      cs.foldlM f s = some s' → cs.foldlM g s = some s' := by
  intro cs
  induction cs with
  | nil => intro s s' h; exact h
  | cons c cs ih =>
      intro s s' h
      simp only [List.foldlM_cons, Option.bind_eq_bind, Option.bind_eq_some] at h ⊢
      obtain ⟨s1, h1, h2⟩ := h
      exact ⟨s1, hfg c s s1 h1, ih s1 s' h2⟩

theorem Visit_fuel_succ {n : Nat} (heap : Heap n) (is_var : ObjectRef n → Bool) :
    ∀ (fuel : Nat) (value : ObjectRef n) (s s' : Visitor n),
      Visit heap is_var fuel value s = some s' →
      Visit heap is_var (fuel + 1) value s = some s' := by
  intro fuel
  induction fuel with
  | zero => intro value s s' h; simp [Visit] at h
  | succ fuel ih =>
      intro value s s' h
      by_cases hv : value ∈ s.visited
      · rw [Visit_of_visited heap is_var _ value s hv] at h ⊢
        exact h
      · cases value with
        | none =>
            rw [Visit_null heap is_var _ s hv] at h ⊢
            exact h
        | some obj =>
            rw [Visit_obj heap is_var _ obj s hv] at h ⊢
            simp only [Option.map_eq_some'] at h ⊢
            obtain ⟨s3, hfold, hleave⟩ := h
            exact ⟨s3, foldlM_mono_fun _ _ (fun c st st' hs => ih c st st' hs) _ _ _ hfold,
              hleave⟩

theorem Visit_fuel_le {n : Nat} (heap : Heap n) (is_var : ObjectRef n → Bool)
    (fuel fuel' : Nat) (hle : fuel ≤ fuel') (value : ObjectRef n) (s s' : Visitor n)
    (h : Visit heap is_var fuel value s = some s') :
    Visit heap is_var fuel' value s = some s' := by
  induction hle with
  | refl => exact h
  | step _ ih => exact Visit_fuel_succ heap is_var _ value s s' ih

/-! ## The state in which the walk ends -/

theorem runVisitor_spec {n : Nat} (heap : Heap n) (root : ObjectRef n)
    (is_var : ObjectRef n → Bool) :
    ∃ s, runVisitor heap root is_var = some s ∧ WalkInv heap is_var root s ∧
      s.stack_ = [] ∧ ∀ p, p ∈ s.visited ↔ Reachable heap root p := by
  obtain ⟨s, hs, _⟩ := Visit_total heap is_var (n + 2) root (Visitor.init n)
    (by rw [unvisited_init]; omega)
  have hcall : Callable heap root (Visitor.init n) root := by
    simp [Callable, Visitor.init]
  obtain ⟨post, hroot⟩ := Visit_post heap is_var root (n + 2) root (Visitor.init n) s hs
    (WalkInv_init heap is_var root) hcall
  have hstack : s.stack_ = [] := post.stack
  refine ⟨s, hs, post.inv, hstack, ?_⟩
  intro p
  constructor
  · exact post.inv.reach p
  · intro hr
    induction hr with
    | refl => exact hroot
    | tail _ hedge ih =>
        obtain ⟨a, rfl, hc⟩ := hedge
        rcases post.inv.closed a ih with h | h
        · rw [hstack] at h
          simp at h
        · exact h _ hc

/-! ## Claims about `SetCommonPrefix` -/

theorem chainHeap_path_unique (q : List (Fin 4)) (h : PathTo chainHeap (some 0) q 3) :
    q = [0, 1, 2, 3] := by
  obtain ⟨hh, hl, hc, hn⟩ := h
  rcases q with _ | ⟨a, _ | ⟨b, _ | ⟨c, _ | ⟨d, _ | ⟨e, r⟩⟩⟩⟩⟩
  · simp at hh
  · simp at hh hl; omega
  · simp [chainHeap, childRefs] at hh hl hc; subst hh; simp at hc; omega
  · simp [chainHeap, childRefs] at hh hl hc
    subst hh
    simp at hc
    obtain ⟨h1, h2⟩ := hc
    subst h1
    simp at h2
    omega
  · simp [chainHeap, childRefs] at hh hl hc
    subst hh
    simp at hc
    obtain ⟨h1, h2, h3⟩ := hc
    subst h1
    simp at h2
    subst h2
    simp at h3
    subst h3
    rfl
  · simp [chainHeap, childRefs] at hh hl hc
    subst hh
    simp at hc
    obtain ⟨h1, h2, h3, h4, _⟩ := hc
    subst h1
    simp at h2
    subst h2
    simp at h3
    subst h3
    simp at h4


theorem chainHeap_path : PathTo chainHeap (some 0) ([0, 1, 2] ++ [3]) 3 where
  head := rfl
  last := rfl
  chain := by simp [chainHeap, childRefs]
  nodup := by decide

/-- C1: on the heap where `R` holds `F1` and `F2` and both hold the variable
`V`, the walk records `[R, F1, V]` for `V`, the path of its first discovery,
and not the common prefix `[R]`; where `v` is reachable along `[A, B, C]` and
along `[A, B, D]` it records `[A, B, C, v]` and not `[A, B]`. -/
theorem C1_shared_variable_keeps_first_path :
    (SetCommonPrefix diamondHeap (some 0) diamondIsVar).bind (fun t => t (some 3))
        = some [0, 1, 3] ∧
    (SetCommonPrefix forkHeap (some 0) forkIsVar).bind (fun t => t (some 4))
        = some [0, 1, 2, 4] := by
  constructor <;> decide

/-- C2, as stated, fails: on the chain `A → B → C → v`, where `v` is a
variable reachable by exactly one path whose ancestors are `[A, B, C]`, the
entry recorded for `v` is not `[A, B, C]`. -/
theorem C2_counterexample :
    chainIsVar (some 3) = true ∧
    PathTo chainHeap (some 0) ([0, 1, 2] ++ [3]) 3 ∧
    (∀ q, PathTo chainHeap (some 0) q 3 → q = [0, 1, 2] ++ [3]) ∧
    ¬ ∃ table, SetCommonPrefix chainHeap (some 0) chainIsVar = some table ∧
        table (some 3) = some [0, 1, 2] := by
  refine ⟨rfl, chainHeap_path, chainHeap_path_unique, ?_⟩
  rintro ⟨table, h1, h2⟩
  have h3 : (SetCommonPrefix chainHeap (some 0) chainIsVar).bind (fun t => t (some 3))
      = some [0, 1, 2, 3] := by decide
  rw [h1] at h3
  simp only [Option.some_bind] at h3
  rw [h2] at h3
  exact absurd h3 (by decide)

/-- C2, amended: when the variable `v` is reachable from `root` by exactly
one simple path, whose ancestors root-to-parent are `ancestors`, the walk
records for `v` the sequence `ancestors ++ [v]`: the full-depth ancestor path
followed by `v` itself. -/
theorem C2_single_path_recorded_with_variable {n : Nat} (heap : Heap n) (root : ObjectRef n)
    (is_var : ObjectRef n → Bool) (v : Fin n) (ancestors : List (Fin n))
    (hvar : is_var (some v) = true)
    (hpath : PathTo heap root (ancestors ++ [v]) v)
    (huniq : ∀ q, PathTo heap root q v → q = ancestors ++ [v]) :
    ∃ table, SetCommonPrefix heap root is_var = some table ∧
      table (some v) = some (ancestors ++ [v]) := by
  obtain ⟨s, hs, hinv, hstack, hvis⟩ := runVisitor_spec heap root is_var
  refine ⟨s.common_prefix, by simp [SetCommonPrefix, hs], ?_⟩
  have hreach : Reachable heap root (some v) := by
    obtain ⟨hh, hl, hc, _⟩ := hpath
    have key : ∀ (l : List (Fin n)) (r : ObjectRef n) (x : Fin n), l.head? = r →
        l.getLast? = some x → List.Chain' (fun x y => some y ∈ childRefs (heap x)) l →
        Reachable heap r (some x) := by
      intro l
      induction l with
      | nil => intro r x _ hl; simp at hl
      | cons a l ih =>
          intro r x hh hl hc
          simp only [List.head?_cons] at hh
          subst hh
          cases l with
          | nil =>
              simp only [List.getLast?_singleton, Option.some.injEq] at hl
              subst hl
              exact Relation.ReflTransGen.refl
          | cons b l =>
              have hc' := List.chain'_cons.1 hc
              have hl' : (b :: l).getLast? = some x := by
                rw [List.getLast?_cons_cons] at hl
                exact hl
              exact Relation.ReflTransGen.head ⟨a, rfl, hc'.1⟩ (ih (some b) x rfl hl' hc'.2)
    exact key _ root v hh hl hc
  have hkey : (s.common_prefix (some v)).isSome = true := by
    rw [hinv.keys]
    exact ⟨v, rfl, (hvis _).2 hreach, by simp [hstack], hvar⟩
  obtain ⟨path, hp⟩ := Option.isSome_iff_exists.1 hkey
  obtain ⟨a, ha, hpa⟩ := hinv.entries _ _ hp
  simp only [Option.some.injEq] at ha
  subst ha
  rw [hp, huniq path hpa]

/-- Witness for C2 (amended) on the chain `A → B → C → v`. -/
theorem C2_single_path_recorded_with_variable_witness :
    ∃ table, SetCommonPrefix chainHeap (some 0) chainIsVar = some table ∧
      table (some 3) = some ([0, 1, 2] ++ [3]) :=
  C2_single_path_recorded_with_variable chainHeap (some 0) chainIsVar 3 [0, 1, 2] rfl
    chainHeap_path chainHeap_path_unique

/-- C3: on every heap, cyclic or with shared objects, the walk returns (for
every recursion bound from `n + 2` on, with the same final state), and the
body of `Visit` past the visited-set and null checks has run exactly once for
every object reachable from `root` and never for any other object. -/
theorem C3_walk_terminates_and_enters_once {n : Nat} (heap : Heap n) (root : ObjectRef n)
    (is_var : ObjectRef n → Bool) :
    ∃ s, (∀ fuel, n + 2 ≤ fuel → Visit heap is_var fuel root (Visitor.init n) = some s) ∧
      ∀ a : Fin n,
        (Reachable heap root (some a) → s.entered.count a = 1) ∧
        (¬ Reachable heap root (some a) → s.entered.count a = 0) := by
  obtain ⟨s, hs, hinv, _, hvis⟩ := runVisitor_spec heap root is_var
  refine ⟨s, fun fuel hle => Visit_fuel_le heap is_var (n + 2) fuel hle root _ s hs, ?_⟩
  intro a
  have hc := hinv.entered_count a
  constructor
  · intro hr
    rw [hc, if_pos ((hvis _).2 hr)]
  · intro hr
    rw [hc, if_neg (fun h => hr ((hvis _).1 h))]

/-- C4: after `SetCommonPrefix` a reference is a key of `common_prefix` if
and only if it is non-null, reachable from `root` through child references
(`root` itself included) and `is_var` holds for it. -/
theorem C4_keys_are_the_reachable_variables {n : Nat} (heap : Heap n) (root : ObjectRef n)
    (is_var : ObjectRef n → Bool) :
    ∃ table, SetCommonPrefix heap root is_var = some table ∧
      ∀ p : ObjectRef n, (table p).isSome = true ↔
        (p ≠ none ∧ Reachable heap root p ∧ is_var p = true) := by
  obtain ⟨s, hs, hinv, hstack, hvis⟩ := runVisitor_spec heap root is_var
  refine ⟨s.common_prefix, by simp [SetCommonPrefix, hs], ?_⟩
  intro p
  rw [hinv.keys p]
  constructor
  · rintro ⟨a, rfl, hv, _, hvar⟩
    exact ⟨by simp, (hvis _).1 hv, hvar⟩
  · rintro ⟨hne, hr, hvar⟩
    cases p with
    | none => exact absurd rfl hne
    | some a => exact ⟨a, rfl, (hvis _).2 hr, by simp [hstack], hvar⟩


/-! ## The name generator -/

theorem toDigitsCore_append (fuel : Nat) :
    ∀ (k : Nat) (ds : List Char), k < fuel →
      Nat.toDigitsCore 10 fuel k ds = Nat.toDigitsCore 10 (k + 1) k [] ++ ds := by
  induction fuel using Nat.strong_induction_on with
  | _ fuel ih =>
      intro k ds hk
      cases fuel with
      | zero => exact absurd hk (Nat.not_lt_zero _)
      | succ fuel =>
          by_cases hq : k / 10 = 0
          · simp [Nat.toDigitsCore, hq]
          · have hlt : k / 10 < k := Nat.div_lt_self (by omega) (by omega)
            have h1 := ih fuel (by omega) (k / 10) (Nat.digitChar (k % 10) :: ds) (by omega)
            have h2 := ih k (by omega) (k / 10) [Nat.digitChar (k % 10)] hlt
            simp only [Nat.toDigitsCore, hq, if_false]
            rw [h1, h2]
            simp

theorem toDigits_step (k : Nat) (hk : 10 ≤ k) :
    Nat.toDigits 10 k = Nat.toDigits 10 (k / 10) ++ [Nat.digitChar (k % 10)] := by
  have hq : k / 10 ≠ 0 := by omega
  have hlt : k / 10 < k := Nat.div_lt_self (by omega) (by omega)
  unfold Nat.toDigits
  rw [Nat.toDigitsCore]
  simp only [hq, if_false]
  exact toDigitsCore_append k (k / 10) _ hlt

theorem toDigits_small (k : Nat) (hk : k < 10) : Nat.toDigits 10 k = [Nat.digitChar k] := by
  have hq : k / 10 = 0 := by omega
  have hm : k % 10 = k := by omega
  unfold Nat.toDigits
  rw [Nat.toDigitsCore]
  simp [hq, hm]

theorem toDigits_ne_nil (k : Nat) : Nat.toDigits 10 k ≠ [] := by
  by_cases hk : k < 10
  · rw [toDigits_small k hk]; simp
  · rw [toDigits_step k (by omega)]; simp

theorem digitChar_inj (a b : Nat) (ha : a < 10) (hb : b < 10)
    (h : Nat.digitChar a = Nat.digitChar b) : a = b := by
  interval_cases a <;> interval_cases b <;> first | rfl | (exact absurd h (by decide))

theorem toDigits_inj : ∀ (a b : Nat), Nat.toDigits 10 a = Nat.toDigits 10 b → a = b := by
  intro a
  induction a using Nat.strong_induction_on with
  | _ a ih =>
      intro b h
      by_cases ha : a < 10
      · by_cases hb : b < 10
        · rw [toDigits_small a ha, toDigits_small b hb] at h
          exact digitChar_inj a b ha hb (by simpa using h)
        · rw [toDigits_small a ha, toDigits_step b (by omega)] at h
          have := congrArg List.length h
          have hne := toDigits_ne_nil (b / 10)
          have hpos : 0 < (Nat.toDigits 10 (b / 10)).length := List.length_pos.2 hne
          simp only [List.length_append, List.length_singleton] at this
          omega
      · by_cases hb : b < 10
        · rw [toDigits_small b hb, toDigits_step a (by omega)] at h
          have := congrArg List.length h
          have hne := toDigits_ne_nil (a / 10)
          have hpos : 0 < (Nat.toDigits 10 (a / 10)).length := List.length_pos.2 hne
          simp only [List.length_append, List.length_singleton] at this
          omega
        · rw [toDigits_step a (by omega), toDigits_step b (by omega)] at h
          have h' := List.append_inj' h rfl
          have h1 := ih (a / 10) (Nat.div_lt_self (by omega) (by omega)) (b / 10) h'.1
          have h2 := digitChar_inj (a % 10) (b % 10) (Nat.mod_lt _ (by omega))
            (Nat.mod_lt _ (by omega)) (by simpa using h'.2)
          omega

/-- The candidate names are pairwise distinct. -/
theorem candidate_inj (name_hint : String) (i j : Nat)
    (h : name_hint ++ "_" ++ toString i = name_hint ++ "_" ++ toString j) : i = j := by
  have hd := congrArg String.data h
  simp only [String.data_append, List.append_cancel_left_eq] at hd
  exact toDigits_inj i j hd

theorem retryName_fresh (name_hint : String) (defined_names : List String) :
    ∀ (fuel i : Nat),
      (∃ j, i ≤ j ∧ j < i + fuel ∧ name_hint ++ "_" ++ toString j ∉ defined_names) →
      retryName name_hint defined_names fuel i ∉ defined_names := by
  intro fuel
  induction fuel with
  | zero =>
      rintro i ⟨j, h1, h2, _⟩
      omega
  | succ fuel ih =>
      rintro i ⟨j, h1, h2, h3⟩
      by_cases hm : name_hint ++ "_" ++ toString i ∈ defined_names
      · simp only [retryName, hm, if_true]
        apply ih
        refine ⟨j, ?_, by omega, h3⟩
        rcases Nat.eq_or_lt_of_le h1 with e | e
        · subst e; exact absurd hm h3
        · exact e
      · simp [retryName, hm]

theorem exists_free_candidate (name_hint : String) (defined_names : List String) :
    ∃ j, 1 ≤ j ∧ j < 1 + (defined_names.length + 1) ∧
      name_hint ++ "_" ++ toString j ∉ defined_names := by
  by_contra hcon
  push_neg at hcon
  have hmaps : ∀ j ∈ Finset.Icc 1 (defined_names.length + 1),
      name_hint ++ "_" ++ toString j ∈ defined_names.toFinset := by
    intro j hj
    simp only [Finset.mem_Icc] at hj
    simp only [List.mem_toFinset]
    exact hcon j hj.1 (by omega)
  have hcard : defined_names.toFinset.card < (Finset.Icc 1 (defined_names.length + 1)).card := by
    have := List.toFinset_card_le defined_names
    simp only [Nat.card_Icc]
    omega
  obtain ⟨x, _, y, _, hne, heq⟩ := Finset.exists_ne_map_eq_of_card_lt_of_maps_to hcard hmaps
  exact hne (candidate_inj name_hint x y heq)

/-- The name returned by `GenerateUniqueName` is never one of the live names. -/
theorem GenerateUniqueName_fresh (name_hint : String) (defined_names : List String) :
    GenerateUniqueName name_hint defined_names ∉ defined_names := by
  unfold GenerateUniqueName
  split
  · exact retryName_fresh name_hint defined_names _ 1
      (exists_free_candidate name_hint defined_names)
  · assumption

theorem GenerateUniqueName_free (name_hint : String) (defined_names : List String)
    (h : name_hint ∉ defined_names) : GenerateUniqueName name_hint defined_names = name_hint := by
  simp [GenerateUniqueName, h]

/-! ## Unfolding the table operations -/

theorem Define_of_unbound {n : Nat} (gen : String → List String → String) (obj : ObjectRef n)
    (frame : Nat) (name_hint : String) (w : Session n) (h : w.d.obj2info obj = none) :
    Define gen obj frame name_hint w =
      (.ok (IdDoc.mk (gen name_hint w.d.defined_names)),
        { d := { w.d with
                 defined_names := w.d.defined_names.insert (gen name_hint w.d.defined_names)
                 obj2info := Function.update w.d.obj2info obj
                   (some (VariableInfo.mk
                     (fun _ => .Id (IdDoc.mk (gen name_hint w.d.defined_names)))
                     (some (gen name_hint w.d.defined_names)))) }
          frames := Function.update w.frames frame
            ((w.frames frame).AddExitCallback (.RemoveVar obj)) }) := by
  simp only [Define, h, insertInfo]

theorem DefineWithFactory_of_unbound {n : Nat} (obj : ObjectRef n) (frame : Nat)
    (doc_factory : DocCreator) (w : Session n) (h : w.d.obj2info obj = none) :
    DefineWithFactory obj frame doc_factory w =
      (.ok (),
        { d := { w.d with
                 obj2info := Function.update w.d.obj2info obj
                   (some (VariableInfo.mk doc_factory none)) }
          frames := Function.update w.frames frame
            ((w.frames frame).AddExitCallback (.RemoveVar obj)) }) := by
  simp only [DefineWithFactory, h, insertInfo]

theorem RemoveVar_of_bound {n : Nat} (obj : ObjectRef n) (d : IRDocsifierNode n)
    (info : VariableInfo) (h : d.obj2info obj = some info) :
    RemoveVar obj d =
      (.ok (),
        { d with
          defined_names :=
            match info.name with
            | some name => d.defined_names.filter (fun m => m != name)
            | none => d.defined_names
          obj2info := Function.update d.obj2info obj none }) := by
  simp only [RemoveVar, h]

theorem RemoveVar_of_unbound {n : Nat} (obj : ObjectRef n) (d : IRDocsifierNode n)
    (h : d.obj2info obj = none) : RemoveVar obj d = (.error (.NoSuchObject obj), d) := by
  simp only [RemoveVar, h]

theorem mem_names_after_remove {n : Nat} (obj : ObjectRef n) (d : IRDocsifierNode n)
    (info : VariableInfo) (h : d.obj2info obj = some info) (m : String) :
    m ∈ (RemoveVar obj d).2.defined_names ↔ m ∈ d.defined_names ∧ info.name ≠ some m := by
  rw [RemoveVar_of_bound obj d info h]
  cases hn : info.name with
  | none => simp
  | some name =>
      simp only [List.mem_filter, bne_iff_ne, ne_eq, Option.some.injEq]
      constructor
      · rintro ⟨h1, h2⟩; exact ⟨h1, fun e => h2 e.symm⟩
      · rintro ⟨h1, h2⟩; exact ⟨h1, fun e => h2 e.symm⟩

theorem defineAll_spec {n : Nat} (gen : String → List String → String)
    (hgen : ∀ hint names, gen hint names ∉ names) :
    ∀ (calls : List (DefineCall n)) (w : Session n),
      (calls.map (fun c => c.obj)).Nodup →
      (∀ c ∈ calls, w.d.obj2info c.obj = none) →
      List.Forall₂
        (fun c r => (∃ name, r.1 = .ok (IdDoc.mk name)) ∧ IsVarDefined c.obj r.2.d = true)
        calls (defineAll gen calls w) ∧
      ((defineAll gen calls w).filterMap returnedName).Nodup ∧
      ((defineAll gen calls w).filterMap returnedName).length = calls.length ∧
      ∀ name ∈ (defineAll gen calls w).filterMap returnedName, name ∉ w.d.defined_names := by
  intro calls
  induction calls with
  | nil =>
      intro w _ _
      simp [defineAll]
  | cons c rest ih =>
      intro w hnd hun
      have hc : w.d.obj2info c.obj = none := hun c (List.mem_cons_self _ _)
      simp only [List.map_cons, List.nodup_cons] at hnd
      have hdef := Define_of_unbound gen c.obj c.frame c.name_hint w hc
      have hrest : ∀ c' ∈ rest,
          (Define gen c.obj c.frame c.name_hint w).2.d.obj2info c'.obj = none := by
        intro c' hc'
        rw [hdef]
        have hne : c'.obj ≠ c.obj := by
          intro e
          exact hnd.1 (e ▸ List.mem_map_of_mem (fun c => c.obj) hc')
        show Function.update w.d.obj2info c.obj _ c'.obj = none
        rw [Function.update_noteq hne]
        exact hun c' (List.mem_cons_of_mem _ hc')
      obtain ⟨h1, h2, h3, h4⟩ := ih (Define gen c.obj c.frame c.name_hint w).2 hnd.2 hrest
      have hret : returnedName (Define gen c.obj c.frame c.name_hint w)
          = some (gen c.name_hint w.d.defined_names) := by
        rw [hdef]; rfl
      have hnames : (Define gen c.obj c.frame c.name_hint w).2.d.defined_names
          = w.d.defined_names.insert (gen c.name_hint w.d.defined_names) := by
        rw [hdef]
      simp only [defineAll, List.filterMap_cons, hret]
      refine ⟨List.Forall₂.cons ⟨?_, ?_⟩ h1, ?_, ?_, ?_⟩
      · exact ⟨_, by rw [hdef]⟩
      · rw [hdef]
        simp [IsVarDefined]
      · rw [List.nodup_cons]
        refine ⟨?_, h2⟩
        intro hmem
        have := h4 _ hmem
        rw [hnames] at this
        exact this (by simp)
      · simp only [List.length_cons, h3]
      · intro name hname
        simp only [List.mem_cons] at hname
        rcases hname with hname | hname
        · subst hname; exact hgen _ _
        · have := h4 _ hname
          rw [hnames] at this
          intro hmem
          exact this (by simp [hmem])

/-! ## The name-registry invariant is preserved -/

theorem NameRegistryInv_empty (n : Nat) : NameRegistryInv (IRDocsifierNode.empty n) where
  unique := by intro o1 o2 i1 i2 name h1; simp [IRDocsifierNode.empty] at h1
  exact := by intro name; simp [IRDocsifierNode.empty]

theorem NameRegistryInv_Define {n : Nat} (gen : String → List String → String)
    (hgen : ∀ hint names, gen hint names ∉ names) (obj : ObjectRef n) (frame : Nat)
    (name_hint : String) (w : Session n) (hinv : NameRegistryInv w.d) :
    NameRegistryInv (Define gen obj frame name_hint w).2.d := by
  cases hb : w.d.obj2info obj with
  | some info =>
      have : Define gen obj frame name_hint w = (.error (.DuplicatedObject obj), w) := by
        simp only [Define, hb]
      rw [this]
      exact hinv
  | none =>
      rw [Define_of_unbound gen obj frame name_hint w hb]
      have hfresh := hgen name_hint w.d.defined_names
      have hnot : ∀ (o : ObjectRef n) (i : VariableInfo), w.d.obj2info o = some i →
          i.name ≠ some (gen name_hint w.d.defined_names) := by
        intro o i ho hn
        exact hfresh ((hinv.exact _).2 ⟨o, i, ho, hn⟩)
      constructor
      · intro o1 o2 i1 i2 name h1 h2 n1 n2
        have h1' : Function.update w.d.obj2info obj _ o1 = some i1 := h1
        have h2' : Function.update w.d.obj2info obj _ o2 = some i2 := h2
        by_cases e1 : o1 = obj
        · by_cases e2 : o2 = obj
          · rw [e1, e2]
          · subst e1
            rw [Function.update_same] at h1'
            rw [Function.update_noteq e2] at h2'
            simp only [Option.some.injEq] at h1'
            subst h1'
            simp only [Option.some.injEq] at n1
            subst n1
            exact absurd n2 (hnot o2 i2 h2')
        · by_cases e2 : o2 = obj
          · subst e2
            rw [Function.update_same] at h2'
            rw [Function.update_noteq e1] at h1'
            simp only [Option.some.injEq] at h2'
            subst h2'
            simp only [Option.some.injEq] at n2
            subst n2
            exact absurd n1 (hnot o1 i1 h1')
          · rw [Function.update_noteq e1] at h1'
            rw [Function.update_noteq e2] at h2'
            exact hinv.unique o1 o2 i1 i2 name h1' h2' n1 n2
      · intro name
        show name ∈ w.d.defined_names.insert (gen name_hint w.d.defined_names) ↔
          ∃ (o : ObjectRef n) (i : VariableInfo),
            Function.update w.d.obj2info obj _ o = some i ∧ i.name = some name
        rw [List.mem_insert_iff]
        constructor
        · rintro (h | h)
          · subst h
            exact ⟨obj, _, Function.update_same _ _ _, rfl⟩
          · obtain ⟨o, i, ho, hn⟩ := (hinv.exact name).1 h
            have hne : o ≠ obj := by
              intro e
              rw [e, hb] at ho
              exact absurd ho (by simp)
            exact ⟨o, i, by rw [Function.update_noteq hne]; exact ho, hn⟩
        · rintro ⟨o, i, ho, hn⟩
          by_cases e : o = obj
          · subst e
            rw [Function.update_same] at ho
            simp only [Option.some.injEq] at ho
            subst ho
            simp only [Option.some.injEq] at hn
            exact Or.inl hn.symm
          · rw [Function.update_noteq e] at ho
            exact Or.inr ((hinv.exact name).2 ⟨o, i, ho, hn⟩)

theorem NameRegistryInv_DefineWithFactory {n : Nat} (obj : ObjectRef n) (frame : Nat)
    (doc_factory : DocCreator) (w : Session n) (hinv : NameRegistryInv w.d) :
    NameRegistryInv (DefineWithFactory obj frame doc_factory w).2.d := by
  cases hb : w.d.obj2info obj with
  | some info =>
      have : DefineWithFactory obj frame doc_factory w
          = (.error (.DuplicatedObject obj), w) := by
        simp only [DefineWithFactory, hb]
      rw [this]
      exact hinv
  | none =>
      rw [DefineWithFactory_of_unbound obj frame doc_factory w hb]
      constructor
      · intro o1 o2 i1 i2 name h1 h2 n1 n2
        have h1' : Function.update w.d.obj2info obj _ o1 = some i1 := h1
        have h2' : Function.update w.d.obj2info obj _ o2 = some i2 := h2
        by_cases e1 : o1 = obj
        · subst e1
          rw [Function.update_same] at h1'
          simp only [Option.some.injEq] at h1'
          subst h1'
          simp at n1
        · by_cases e2 : o2 = obj
          · subst e2
            rw [Function.update_same] at h2'
            simp only [Option.some.injEq] at h2'
            subst h2'
            simp at n2
          · rw [Function.update_noteq e1] at h1'
            rw [Function.update_noteq e2] at h2'
            exact hinv.unique o1 o2 i1 i2 name h1' h2' n1 n2
      · intro name
        show name ∈ w.d.defined_names ↔
          ∃ (o : ObjectRef n) (i : VariableInfo),
            Function.update w.d.obj2info obj _ o = some i ∧ i.name = some name
        rw [hinv.exact name]
        constructor
        · rintro ⟨o, i, ho, hn⟩
          have hne : o ≠ obj := by
            intro e
            rw [e, hb] at ho
            exact absurd ho (by simp)
          exact ⟨o, i, by rw [Function.update_noteq hne]; exact ho, hn⟩
        · rintro ⟨o, i, ho, hn⟩
          by_cases e : o = obj
          · subst e
            rw [Function.update_same] at ho
            simp only [Option.some.injEq] at ho
            subst ho
            simp at hn
          · rw [Function.update_noteq e] at ho
            exact ⟨o, i, ho, hn⟩

theorem NameRegistryInv_RemoveVar {n : Nat} (obj : ObjectRef n) (d : IRDocsifierNode n)
    (hinv : NameRegistryInv d) : NameRegistryInv (RemoveVar obj d).2 := by
  cases hb : d.obj2info obj with
  | none =>
      rw [RemoveVar_of_unbound obj d hb]
      exact hinv
  | some info =>
      have hmem := mem_names_after_remove obj d info hb
      have hinfo : ∀ o, (RemoveVar obj d).2.obj2info o = Function.update d.obj2info obj none o := by
        intro o
        rw [RemoveVar_of_bound obj d info hb]
      constructor
      · intro o1 o2 i1 i2 name h1 h2 n1 n2
        rw [hinfo] at h1 h2
        have e1 : o1 ≠ obj := by
          intro e; rw [e, Function.update_same] at h1; exact absurd h1 (by simp)
        have e2 : o2 ≠ obj := by
          intro e; rw [e, Function.update_same] at h2; exact absurd h2 (by simp)
        rw [Function.update_noteq e1] at h1
        rw [Function.update_noteq e2] at h2
        exact hinv.unique o1 o2 i1 i2 name h1 h2 n1 n2
      · intro name
        rw [hmem name, hinv.exact name]
        constructor
        · rintro ⟨⟨o, i, ho, hn⟩, hne⟩
          have e : o ≠ obj := by
            intro e
            rw [e, hb] at ho
            simp only [Option.some.injEq] at ho
            subst ho
            exact hne hn
          exact ⟨o, i, by rw [hinfo, Function.update_noteq e]; exact ho, hn⟩
        · rintro ⟨o, i, ho, hn⟩
          rw [hinfo] at ho
          have e : o ≠ obj := by
            intro e; rw [e, Function.update_same] at ho; exact absurd ho (by simp)
          rw [Function.update_noteq e] at ho
          refine ⟨⟨o, i, ho, hn⟩, ?_⟩
          intro hn'
          exact e (hinv.unique o obj i info name ho hb hn hn')

theorem NameRegistryInv_apply {n : Nat} (gen : String → List String → String)
    (hgen : ∀ hint names, gen hint names ∉ names) (op : Op n) (w : Session n)
    (hinv : NameRegistryInv w.d) : NameRegistryInv (op.apply gen w).d := by
  cases op with
  | define obj frame name_hint => exact NameRegistryInv_Define gen hgen obj frame name_hint w hinv
  | defineWithFactory obj frame doc_factory =>
      exact NameRegistryInv_DefineWithFactory obj frame doc_factory w hinv
  | removeVar obj => exact NameRegistryInv_RemoveVar obj w.d hinv

theorem NameRegistryInv_runOps {n : Nat} (gen : String → List String → String)
    (hgen : ∀ hint names, gen hint names ∉ names) :
    ∀ (ops : List (Op n)) (w : Session n), NameRegistryInv w.d →
      NameRegistryInv (runOps gen ops w).d := by
  intro ops
  induction ops with
  | nil => intro w h; exact h
  | cons op ops ih =>
      intro w h
      exact ih (op.apply gen w) (NameRegistryInv_apply gen hgen op w h)

/-! ## Running exit callbacks -/

theorem runCallbacks_cons_bound {n : Nat} (obj : ObjectRef n) (rest : List (ExitCallback n))
    (d : IRDocsifierNode n) (info : VariableInfo) (h : d.obj2info obj = some info) :
    runCallbacks (.RemoveVar obj :: rest) d = runCallbacks rest (RemoveVar obj d).2 := by
  simp only [runCallbacks, ExitCallback.run, RemoveVar_of_bound obj d info h]

theorem runCallbacks_cons_unbound {n : Nat} (obj : ObjectRef n) (rest : List (ExitCallback n))
    (d : IRDocsifierNode n) (h : d.obj2info obj = none) :
    runCallbacks (.RemoveVar obj :: rest) d = (.error (.NoSuchObject obj), d) := by
  simp only [runCallbacks, ExitCallback.run, RemoveVar_of_unbound obj d h]

theorem runCallbacks_ok {n : Nat} :
    ∀ (cbs : List (ExitCallback n)) (d : IRDocsifierNode n),
      (runCallbacks cbs d).1 = .ok () →
      (∀ obj, ExitCallback.RemoveVar obj ∈ cbs → (runCallbacks cbs d).2.obj2info obj = none) ∧
      (∀ o, (runCallbacks cbs d).2.obj2info o = none ∨
        (runCallbacks cbs d).2.obj2info o = d.obj2info o) ∧
      (∀ m, m ∈ (runCallbacks cbs d).2.defined_names → m ∈ d.defined_names) ∧
      (∀ obj info name, ExitCallback.RemoveVar obj ∈ cbs → d.obj2info obj = some info →
        info.name = some name → name ∉ (runCallbacks cbs d).2.defined_names) := by
  intro cbs
  induction cbs with
  | nil =>
      intro d _
      refine ⟨?_, fun _ => Or.inr rfl, fun _ hm => hm, ?_⟩
      · intro obj h; simp at h
      · intro obj info name h; simp at h
  | cons cb rest ih =>
      intro d hok
      cases cb with
      | RemoveVar o0 =>
          cases hb : d.obj2info o0 with
          | none =>
              rw [runCallbacks_cons_unbound o0 rest d hb] at hok
              exact absurd hok (by simp)
          | some info0 =>
              rw [runCallbacks_cons_bound o0 rest d info0 hb] at hok ⊢
              obtain ⟨h1, h2, h3, h4⟩ := ih (RemoveVar o0 d).2 hok
              have hinfo : ∀ o, (RemoveVar o0 d).2.obj2info o
                  = Function.update d.obj2info o0 none o := by
                intro o
                rw [RemoveVar_of_bound o0 d info0 hb]
              have hnames := mem_names_after_remove o0 d info0 hb
              refine ⟨?_, ?_, ?_, ?_⟩
              · intro obj hmem
                simp only [List.mem_cons, ExitCallback.RemoveVar.injEq] at hmem
                rcases hmem with hmem | hmem
                · subst hmem
                  rcases h2 obj with h | h
                  · exact h
                  · rw [h, hinfo, Function.update_same]
                · exact h1 obj hmem
              · intro o
                rcases h2 o with h | h
                · exact Or.inl h
                · by_cases e : o = o0
                  · left
                    rw [h, hinfo, e, Function.update_same]
                  · right
                    rw [h, hinfo, Function.update_noteq e]
              · intro m hm
                exact ((hnames m).1 (h3 m hm)).1
              · intro obj info name hmem hobj hname hin
                by_cases e : obj = o0
                · subst e
                  rw [hb] at hobj
                  simp only [Option.some.injEq] at hobj
                  subst hobj
                  exact ((hnames name).1 (h3 name hin)).2 hname
                · simp only [List.mem_cons, ExitCallback.RemoveVar.injEq] at hmem
                  rcases hmem with hmem | hmem
                  · exact e hmem
                  · have hobj' : (RemoveVar o0 d).2.obj2info obj = some info := by
                      rw [hinfo, Function.update_noteq e]
                      exact hobj
                    exact h4 obj info name hmem hobj' hname hin

theorem runExitCallbacks_fst {n : Nat} (frame : Nat) (w : Session n) :
    (runExitCallbacks frame w).1 = (runCallbacks (w.frames frame).callbacks w.d).1 ∧
    (runExitCallbacks frame w).2.d = (runCallbacks (w.frames frame).callbacks w.d).2 := by
  unfold runExitCallbacks
  rcases h : runCallbacks (w.frames frame).callbacks w.d with ⟨r, d1⟩
  cases r with
  | ok u => exact ⟨rfl, rfl⟩
  | error e => exact ⟨rfl, rfl⟩

/-! ## Claims about the variable table -/

/-- C5: when `obj` is already bound, both overloads of `Define` fail with the
duplicate-object error and leave the whole state (variable table, live names,
metadata and every frame's callback list) as it was. -/
theorem C5_define_on_bound_object_fails {n : Nat} (gen : String → List String → String)
    (obj : ObjectRef n) (frame : Nat) (name_hint : String) (doc_factory : DocCreator)
    (w : Session n) (hbound : IsVarDefined obj w.d = true) :
    Define gen obj frame name_hint w = (.error (.DuplicatedObject obj), w) ∧
    DefineWithFactory obj frame doc_factory w = (.error (.DuplicatedObject obj), w) := by
  unfold IsVarDefined at hbound
  obtain ⟨info, hinfo⟩ := Option.isSome_iff_exists.1 hbound
  constructor
  · simp only [Define, hinfo]
  · simp only [DefineWithFactory, hinfo]

/-- Witness for C5: object 0 is bound in `session1`. -/
theorem C5_define_on_bound_object_fails_witness :
    IsVarDefined (some 0) session1.d = true ∧
    Define GenerateUniqueName (some 0) 8 "y" session1
      = (.error (.DuplicatedObject (some 0)), session1) ∧
    DefineWithFactory (some 0) 8 (fun _ => .LiteralInt 0) session1
      = (.error (.DuplicatedObject (some 0)), session1) :=
  ⟨by decide, C5_define_on_bound_object_fails GenerateUniqueName (some 0) 8 "y"
    (fun _ => .LiteralInt 0) session1 (by decide)⟩


/-- C6: a sequence of `Define(obj, frame, name_hint)` calls on pairwise
distinct objects, started on an empty docsifier: every call returns an
`IdDoc`, `IsVarDefined` holds of its object right after the call, and the
returned names are pairwise distinct, one per call.  The name generator is
any function returning a name outside the set it is given. -/
theorem C6_defines_on_distinct_objects {n : Nat} (gen : String → List String → String)
    (hgen : ∀ hint names, gen hint names ∉ names) (frames : Nat → FrameNode n)
    (calls : List (DefineCall n)) (hdistinct : (calls.map (fun c => c.obj)).Nodup) :
    List.Forall₂
      (fun c r => (∃ name, r.1 = .ok (IdDoc.mk name)) ∧ IsVarDefined c.obj r.2.d = true)
      calls (defineAll gen calls ⟨IRDocsifierNode.empty n, frames⟩) ∧
    ((defineAll gen calls ⟨IRDocsifierNode.empty n, frames⟩).filterMap returnedName).Nodup ∧
    ((defineAll gen calls ⟨IRDocsifierNode.empty n, frames⟩).filterMap returnedName).length
      = calls.length := by
  obtain ⟨h1, h2, h3, _⟩ := defineAll_spec gen hgen calls ⟨IRDocsifierNode.empty n, frames⟩
    hdistinct (fun _ _ => rfl)
  exact ⟨h1, h2, h3⟩

/-- Witness for C6: two objects defined with the same hint `"x"`. -/
theorem C6_defines_on_distinct_objects_witness :
    (sameHintCalls.map (fun c => c.obj)).Nodup ∧
    List.Forall₂
      (fun c r => (∃ name, r.1 = .ok (IdDoc.mk name)) ∧ IsVarDefined c.obj r.2.d = true)
      sameHintCalls (defineAll GenerateUniqueName sameHintCalls session0) ∧
    ((defineAll GenerateUniqueName sameHintCalls session0).filterMap returnedName).Nodup ∧
    ((defineAll GenerateUniqueName sameHintCalls session0).filterMap returnedName).length
      = sameHintCalls.length :=
  ⟨by decide, C6_defines_on_distinct_objects GenerateUniqueName GenerateUniqueName_fresh
    (fun _ => ⟨[]⟩) sameHintCalls (by decide)⟩

/-- C7: in every state reached from an empty docsifier by any sequence of
`Define` (either overload) and `RemoveVar` calls, returning or failing, no
two bound objects carry the same name and `defined_names` holds exactly the
names carried by the bound objects.  The name generator is any function
returning a name outside the set it is given. -/
theorem C7_name_registry_invariant {n : Nat} (gen : String → List String → String)
    (hgen : ∀ hint names, gen hint names ∉ names) (frames : Nat → FrameNode n)
    (ops : List (Op n)) :
    NameRegistryInv (runOps gen ops ⟨IRDocsifierNode.empty n, frames⟩).d :=
  NameRegistryInv_runOps gen hgen ops ⟨IRDocsifierNode.empty n, frames⟩
    (NameRegistryInv_empty n)

/-- Witness for C7: the invariant after a run that defines two objects with
the same hint, fails to define one of them again, removes one, fails to
remove it again and defines a third with a factory. -/
theorem C7_name_registry_invariant_witness :
    NameRegistryInv (runOps GenerateUniqueName exampleOps session0).d :=
  C7_name_registry_invariant GenerateUniqueName GenerateUniqueName_fresh (fun _ => ⟨[]⟩)
    exampleOps


/-- C8, as stated, fails: objects 0 and 1 are bound with frame 7, both with
the hint `"x"`, and object 1 holds the name `"x_1"`; after the frame's exit
callbacks have run, a `Define` of the new object 2 with the same hint `"x"`
is given `"x"`, not `"x_1"`. -/
theorem C8_counterexample :
    (Define GenerateUniqueName (some 0) 7 "x" session0).1.toOption = some (IdDoc.mk "x") ∧
    (Define GenerateUniqueName (some 1) 7 "x" session1).1.toOption = some (IdDoc.mk "x_1") ∧
    (runExitCallbacks 7 session2).1.toOption = some () ∧
    IsVarDefined (some 1) session3.d = false ∧
    (Define GenerateUniqueName (some 2) 9 "x" session3).1.toOption = some (IdDoc.mk "x") ∧
    (Define GenerateUniqueName (some 2) 9 "x" session3).1.toOption ≠ some (IdDoc.mk "x_1") := by
  refine ⟨?_, ?_, ?_, ?_, ?_, ?_⟩ <;> decide

/-- C8, amended: when the exit callbacks of a frame run in the order added
and none fails, every object whose retraction they hold (every object bound
with that frame) reports `IsVarDefined == false`, the name it held is no
longer in `defined_names`, and a subsequent `Define` of an unbound object
whose hint is that released name is given that same name again.  The name
generator is any function returning a hint that is not live unchanged. -/
theorem C8_exit_callbacks_release_names {n : Nat} (gen : String → List String → String)
    (hgen : ∀ hint names, hint ∉ names → gen hint names = hint) (frame : Nat) (w : Session n)
    (hok : (runExitCallbacks frame w).1 = .ok ()) (obj : ObjectRef n)
    (hcb : ExitCallback.RemoveVar obj ∈ (w.frames frame).callbacks) :
    IsVarDefined obj (runExitCallbacks frame w).2.d = false ∧
    ∀ (info : VariableInfo) (name : String),
      w.d.obj2info obj = some info → info.name = some name →
      name ∉ (runExitCallbacks frame w).2.d.defined_names ∧
      ∀ (fresh : ObjectRef n) (frame2 : Nat),
        IsVarDefined fresh (runExitCallbacks frame w).2.d = false →
        (Define gen fresh frame2 name (runExitCallbacks frame w).2).1 = .ok (IdDoc.mk name) := by
  obtain ⟨e1, e2⟩ := runExitCallbacks_fst frame w
  rw [e1] at hok
  obtain ⟨h1, _, _, h4⟩ := runCallbacks_ok (w.frames frame).callbacks w.d hok
  refine ⟨?_, ?_⟩
  · unfold IsVarDefined
    rw [e2, h1 obj hcb]
    rfl
  · intro info name hinfo hname
    have hfree : name ∉ (runExitCallbacks frame w).2.d.defined_names := by
      rw [e2]
      exact h4 obj info name hcb hinfo hname
    refine ⟨hfree, ?_⟩
    intro fresh frame2 hfresh
    have hun : (runExitCallbacks frame w).2.d.obj2info fresh = none := by
      unfold IsVarDefined at hfresh
      cases h : (runExitCallbacks frame w).2.d.obj2info fresh with
      | none => rfl
      | some i => rw [h] at hfresh; exact absurd hfresh (by simp)
    rw [Define_of_unbound gen fresh frame2 name _ hun, hgen name _ hfree]

/-- Witness for C8 (amended): object 0, bound with frame 7 under the name
`"x"`, after the callbacks of frame 7 have run in `session2`. -/
theorem C8_exit_callbacks_release_names_witness :
    (runExitCallbacks 7 session2).1 = .ok () ∧
    ExitCallback.RemoveVar (some 0) ∈ (session2.frames 7).callbacks ∧
    IsVarDefined (some 0) (runExitCallbacks 7 session2).2.d = false ∧
    ∀ (info : VariableInfo) (name : String),
      session2.d.obj2info (some 0) = some info → info.name = some name →
      name ∉ (runExitCallbacks 7 session2).2.d.defined_names ∧
      ∀ (fresh : ObjectRef 3) (frame2 : Nat),
        IsVarDefined fresh (runExitCallbacks 7 session2).2.d = false →
        (Define GenerateUniqueName fresh frame2 name (runExitCallbacks 7 session2).2).1
          = .ok (IdDoc.mk name) :=
  ⟨rfl, by simp [session2, session1, session0, Define, insertInfo, IRDocsifierNode.empty,
      FrameNode.AddExitCallback],
    C8_exit_callbacks_release_names GenerateUniqueName GenerateUniqueName_free 7 session2 rfl
      (some 0) (by simp [session2, session1, session0, Define, insertInfo,
        IRDocsifierNode.empty, FrameNode.AddExitCallback])⟩


/-- C9: `RemoveVar(obj)` fails if and only if `obj` is not bound, and then
the state is unchanged.  When `obj` is bound it returns, `obj` is no longer
bound, every other binding is as before, `defined_names` loses exactly the
name the binding held (nothing when it held none), and `metadata` is as
before. -/
theorem C9_RemoveVar_contract {n : Nat} (obj : ObjectRef n) (d : IRDocsifierNode n) :
    ((∃ e, (RemoveVar obj d).1 = .error e) ↔ IsVarDefined obj d = false) ∧
    (IsVarDefined obj d = false → RemoveVar obj d = (.error (.NoSuchObject obj), d)) ∧
    (∀ info : VariableInfo, d.obj2info obj = some info →
      (RemoveVar obj d).1 = .ok () ∧
      (RemoveVar obj d).2.obj2info obj = none ∧
      (∀ o, o ≠ obj → (RemoveVar obj d).2.obj2info o = d.obj2info o) ∧
      (∀ m, m ∈ (RemoveVar obj d).2.defined_names ↔ m ∈ d.defined_names ∧ info.name ≠ some m) ∧
      (RemoveVar obj d).2.metadata = d.metadata) := by
  refine ⟨?_, ?_, ?_⟩
  · unfold IsVarDefined
    cases hb : d.obj2info obj with
    | none =>
        rw [RemoveVar_of_unbound obj d hb]
        simp
    | some info =>
        rw [RemoveVar_of_bound obj d info hb]
        simp
  · intro h
    unfold IsVarDefined at h
    cases hb : d.obj2info obj with
    | none => exact RemoveVar_of_unbound obj d hb
    | some info => rw [hb] at h; exact absurd h (by simp)
  · intro info hb
    refine ⟨?_, ?_, ?_, mem_names_after_remove obj d info hb, ?_⟩
    · rw [RemoveVar_of_bound obj d info hb]
    · rw [RemoveVar_of_bound obj d info hb]
      exact Function.update_same _ _ _
    · intro o ho
      rw [RemoveVar_of_bound obj d info hb]
      exact Function.update_noteq ho _ _
    · rw [RemoveVar_of_bound obj d info hb]

/-- C10: `GetVarDoc(obj)` returns none exactly when `IsVarDefined(obj)` is
false; when `obj` is bound it returns what the stored factory produces, which
for a binding made by `Define(obj, frame, doc_factory)` is what the caller's
factory produces; the call leaves the state as it was. -/
theorem C10_GetVarDoc_contract {n : Nat} (obj : ObjectRef n) (d : IRDocsifierNode n) :
    ((GetVarDoc obj d).1 = none ↔ IsVarDefined obj d = false) ∧
    (∀ info : VariableInfo, d.obj2info obj = some info →
      (GetVarDoc obj d).1 = some (info.creator ())) ∧
    (∀ (frames : Nat → FrameNode n) (frame : Nat) (doc_factory : DocCreator),
      d.obj2info obj = none →
      (GetVarDoc obj (DefineWithFactory obj frame doc_factory ⟨d, frames⟩).2.d).1
        = some (doc_factory ())) ∧
    (GetVarDoc obj d).2 = d := by
  refine ⟨?_, ?_, ?_, ?_⟩
  · unfold IsVarDefined GetVarDoc
    cases d.obj2info obj <;> simp
  · intro info hb
    simp only [GetVarDoc, hb]
  · intro frames frame doc_factory hb
    rw [DefineWithFactory_of_unbound obj frame doc_factory ⟨d, frames⟩ hb]
    simp only [GetVarDoc, Function.update_same]
  · unfold GetVarDoc
    cases d.obj2info obj <;> rfl

/-- The names handed out for two definitions with the hint `"x"`. -/
theorem sameHintCalls_names :
    (defineAll GenerateUniqueName sameHintCalls session0).filterMap returnedName
      = ["x", "x_1"] := by
  decide

/-- On the two-object cycle the body of `Visit` runs once for `X` and once
for `Y`, and not for the unreferenced object. -/
theorem cycleHeap_entered :
    (runVisitor cycleHeap (some 0) (fun _ => false)).map (fun s => s.entered)
      = some [1, 0] := by
  decide


/-! ## Bindings persist under calls on other objects -/

theorem Op.apply_obj2info_other {n : Nat} (gen : String → List String → String) (op : Op n)
    (w : Session n) (obj : ObjectRef n) (h : op.target ≠ obj) :
    (op.apply gen w).d.obj2info obj = w.d.obj2info obj := by
  cases op with
  | define o frame name_hint =>
      have hne : obj ≠ o := fun e => h e.symm
      show (Define gen o frame name_hint w).2.d.obj2info obj = w.d.obj2info obj
      cases hb : w.d.obj2info o with
      | some info => simp only [Define, hb]
      | none =>
          rw [Define_of_unbound gen o frame name_hint w hb]
          exact Function.update_noteq hne _ _
  | defineWithFactory o frame doc_factory =>
      have hne : obj ≠ o := fun e => h e.symm
      show (DefineWithFactory o frame doc_factory w).2.d.obj2info obj = w.d.obj2info obj
      cases hb : w.d.obj2info o with
      | some info => simp only [DefineWithFactory, hb]
      | none =>
          rw [DefineWithFactory_of_unbound o frame doc_factory w hb]
          exact Function.update_noteq hne _ _
  | removeVar o =>
      have hne : obj ≠ o := fun e => h e.symm
      show (RemoveVar o w.d).2.obj2info obj = w.d.obj2info obj
      cases hb : w.d.obj2info o with
      | none => rw [RemoveVar_of_unbound o w.d hb]
      | some info =>
          rw [RemoveVar_of_bound o w.d info hb]
          exact Function.update_noteq hne _ _

theorem runOps_obj2info_other {n : Nat} (gen : String → List String → String)
    (obj : ObjectRef n) :
    ∀ (ops : List (Op n)) (w : Session n), (∀ op ∈ ops, op.target ≠ obj) →
      (runOps gen ops w).d.obj2info obj = w.d.obj2info obj := by
  intro ops
  induction ops with
  | nil => intro w _; rfl
  | cons op ops ih =>
      intro w h
      have h1 := ih (op.apply gen w) (fun o ho => h o (List.mem_cons_of_mem _ ho))
      have h2 := Op.apply_obj2info_other gen op w obj (h op (List.mem_cons_self _ _))
      show (runOps gen ops (op.apply gen w)).d.obj2info obj = w.d.obj2info obj
      rw [h1, h2]

/-- C11: when `Define(obj, frame, name_hint)` returns the identifier `doc`,
`GetVarDoc(obj)` returns the identifier expression of `doc` right after the
call and after any sequence of `Define` (either overload) and `RemoveVar`
calls on other objects. -/
theorem C11_GetVarDoc_stable_after_Define {n : Nat} (gen : String → List String → String)
    (obj : ObjectRef n) (frame : Nat) (name_hint : String) (w : Session n) (doc : IdDoc)
    (hdef : (Define gen obj frame name_hint w).1 = .ok doc)
    (ops : List (Op n)) (hother : ∀ op ∈ ops, op.target ≠ obj) :
    (GetVarDoc obj (Define gen obj frame name_hint w).2.d).1 = some (.Id doc) ∧
    (GetVarDoc obj (runOps gen ops (Define gen obj frame name_hint w).2).d).1
      = some (.Id doc) := by
  cases hb : w.d.obj2info obj with
  | some info =>
      simp only [Define, hb] at hdef
      exact absurd hdef (by simp)
  | none =>
      have hD := Define_of_unbound gen obj frame name_hint w hb
      rw [hD] at hdef
      simp only [Except.ok.injEq] at hdef
      have hinfo : (Define gen obj frame name_hint w).2.d.obj2info obj
          = some (VariableInfo.mk (fun _ => .Id doc) (some doc.name)) := by
        rw [hD, ← hdef]
        exact Function.update_same _ _ _
      constructor
      · simp only [GetVarDoc, hinfo]
      · have hkeep := runOps_obj2info_other gen obj ops (Define gen obj frame name_hint w).2
          hother
        simp only [GetVarDoc, hkeep, hinfo]

/-- Witness for C11: object 0 defined with hint `"x"`, then object 1 defined,
object 1 removed and object 2 defined with a factory. -/
theorem C11_GetVarDoc_stable_after_Define_witness :
    (Define GenerateUniqueName (some 0) 7 "x" session0).1 = .ok (IdDoc.mk "x") ∧
    (GetVarDoc (some 0) (Define GenerateUniqueName (some 0) 7 "x" session0).2.d).1
      = some (.Id (IdDoc.mk "x")) ∧
    (GetVarDoc (some 0) (runOps GenerateUniqueName otherOps
        (Define GenerateUniqueName (some 0) 7 "x" session0).2).d).1
      = some (.Id (IdDoc.mk "x")) :=
  ⟨rfl, C11_GetVarDoc_stable_after_Define GenerateUniqueName (some 0) 7 "x" session0
    (IdDoc.mk "x") rfl otherOps (by decide)⟩


/-! ## Buckets of the metadata table -/

theorem pushNew_of_mem {α : Type} [DecidableEq α] (bucket : List α) (x : α) (h : x ∈ bucket) :
    pushNew bucket x = bucket := by
  unfold pushNew findIndex
  rw [if_neg]
  exact fun e => (List.indexOf_eq_length.1 e) h

theorem pushNew_of_not_mem {α : Type} [DecidableEq α] (bucket : List α) (x : α)
    (h : x ∉ bucket) : pushNew bucket x = bucket ++ [x] := by
  unfold pushNew findIndex
  rw [if_pos (List.indexOf_eq_length.2 h)]

theorem foldl_pushNew_prefix {α : Type} [DecidableEq α] :
    ∀ (l acc : List α), ∃ t, l.foldl pushNew acc = acc ++ t := by
  intro l
  induction l with
  | nil => intro acc; exact ⟨[], by simp⟩
  | cons x l ih =>
      intro acc
      obtain ⟨t, ht⟩ := ih (pushNew acc x)
      by_cases hx : x ∈ acc
      · rw [pushNew_of_mem acc x hx] at ht
        exact ⟨t, by rw [List.foldl_cons, pushNew_of_mem acc x hx, ht]⟩
      · rw [pushNew_of_not_mem acc x hx] at ht
        exact ⟨[x] ++ t, by
          rw [List.foldl_cons, pushNew_of_not_mem acc x hx, ht, List.append_assoc]⟩

theorem foldl_pushNew_mem {α : Type} [DecidableEq α] :
    ∀ (l acc : List α) (y : α), y ∈ l.foldl pushNew acc ↔ y ∈ acc ∨ y ∈ l := by
  intro l
  induction l with
  | nil => intro acc y; simp
  | cons x l ih =>
      intro acc y
      rw [List.foldl_cons, ih]
      by_cases hx : x ∈ acc
      · rw [pushNew_of_mem acc x hx]
        simp only [List.mem_cons]
        constructor
        · rintro (h | h)
          · exact Or.inl h
          · exact Or.inr (Or.inr h)
        · rintro (h | h | h)
          · exact Or.inl h
          · exact Or.inl (h ▸ hx)
          · exact Or.inr h
      · rw [pushNew_of_not_mem acc x hx]
        simp only [List.mem_append, List.mem_singleton, List.mem_cons]
        tauto

theorem foldl_pushNew_nodup {α : Type} [DecidableEq α] :
    ∀ (l acc : List α), acc.Nodup → (l.foldl pushNew acc).Nodup := by
  intro l
  induction l with
  | nil => intro acc h; exact h
  | cons x l ih =>
      intro acc h
      rw [List.foldl_cons]
      apply ih
      by_cases hx : x ∈ acc
      · rw [pushNew_of_mem acc x hx]; exact h
      · rw [pushNew_of_not_mem acc x hx]
        exact List.Nodup.append h (List.nodup_singleton x)
          (by intro a ha hb; simp only [List.mem_singleton] at hb; exact hx (hb ▸ ha))

theorem foldl_pushNew_length {α : Type} [DecidableEq α] (l : List α) :
    (l.foldl pushNew []).length = l.dedup.length := by
  rw [← List.card_toFinset, ← List.toFinset_card_of_nodup (foldl_pushNew_nodup l [] List.nodup_nil)]
  congr 1
  ext y
  simp [foldl_pushNew_mem]

theorem foldl_pushNew_indexOf {α : Type} [DecidableEq α] (l acc : List α) (x : α)
    (h : x ∈ acc) : (l.foldl pushNew acc).indexOf x = acc.indexOf x := by
  obtain ⟨t, ht⟩ := foldl_pushNew_prefix l acc
  rw [ht, List.indexOf_append_of_mem h]

/-- The index of `x` in the bucket built from `l` is the number of distinct
elements of `l` before the first occurrence of `x`. -/
theorem foldl_pushNew_rank {α : Type} [DecidableEq α] (l : List α) (x : α) :
    (l.foldl pushNew []).indexOf x = (l.takeWhile (fun y => y != x)).dedup.length := by
  by_cases hx : x ∈ l
  · obtain ⟨p1, p2, hl, hp1⟩ := List.eq_append_cons_of_mem hx
    have hpos : ∀ y ∈ p1, (fun y => y != x) y = true := by
      intro y hy
      simp only [bne_iff_ne, ne_eq]
      exact fun e => hp1 (e ▸ hy)
    have htw : l.takeWhile (fun y => y != x) = p1 := by
      rw [hl, List.takeWhile_append_of_pos hpos]
      simp
    have hnot : x ∉ p1.foldl pushNew [] := by
      rw [foldl_pushNew_mem]
      simp [hp1]
    rw [htw, hl, List.foldl_append, List.foldl_cons, pushNew_of_not_mem _ x hnot,
      foldl_pushNew_indexOf p2 _ x (by simp), List.indexOf_append_of_not_mem hnot,
      ← foldl_pushNew_length]
    simp
  · have htw : l.takeWhile (fun y => y != x) = l := by
      rw [List.takeWhile_eq_self_iff]
      intro y hy
      simp only [bne_iff_ne, ne_eq]
      exact fun e => hx (e ▸ hy)
    rw [htw, ← foldl_pushNew_length]
    apply List.indexOf_eq_length.2
    rw [foldl_pushNew_mem]
    simp [hx]

theorem AddMetadata_fst {n : Nat} (type_key : Fin n → String) (a : Fin n)
    (d : IRDocsifierNode n) :
    (AddMetadata type_key (some a) d).1
      = .ok (metadataDoc (type_key a) (findIndex (bucketOf d (type_key a)) (some a))) := rfl

theorem AddMetadata_metadata {n : Nat} (type_key : Fin n → String) (a : Fin n)
    (d : IRDocsifierNode n) :
    (AddMetadata type_key (some a) d).2.metadata
      = Function.update d.metadata (type_key a)
          (some (pushNew (bucketOf d (type_key a)) (some a))) := rfl

theorem AddMetadata_bucketOf {n : Nat} (type_key : Fin n → String) (a : Fin n)
    (d : IRDocsifierNode n) (key : String) :
    bucketOf (AddMetadata type_key (some a) d).2 key
      = if type_key a = key then pushNew (bucketOf d key) (some a) else bucketOf d key := by
  unfold bucketOf
  rw [AddMetadata_metadata]
  by_cases h : type_key a = key
  · subst h
    simp [bucketOf]
  · rw [if_neg h, Function.update_noteq (fun e => h e.symm)]

theorem internAll_bucketOf {n : Nat} (type_key : Fin n → String) (key : String) :
    ∀ (objs : List (Fin n)) (d : IRDocsifierNode n),
      bucketOf (internAll type_key objs d) key
        = ((objs.filter (fun b => type_key b == key)).map some).foldl pushNew
            (bucketOf d key) := by
  intro objs
  induction objs with
  | nil => intro d; rfl
  | cons a objs ih =>
      intro d
      show bucketOf (internAll type_key objs (AddMetadata type_key (some a) d).2) key = _
      rw [ih, AddMetadata_bucketOf]
      by_cases h : type_key a = key
      · simp [h]
      · simp [h]

theorem internAll_metadata_isSome {n : Nat} (type_key : Fin n → String) (key : String) :
    ∀ (objs : List (Fin n)) (d : IRDocsifierNode n), (d.metadata key).isSome = true →
      ((internAll type_key objs d).metadata key).isSome = true := by
  intro objs
  induction objs with
  | nil => intro d h; exact h
  | cons a objs ih =>
      intro d h
      show ((internAll type_key objs (AddMetadata type_key (some a) d).2).metadata key).isSome
        = true
      apply ih
      rw [AddMetadata_metadata]
      by_cases e : key = type_key a
      · rw [e, Function.update_same]; rfl
      · rw [Function.update_noteq e]; exact h

theorem AddMetadata_of_mem {n : Nat} (type_key : Fin n → String) (a : Fin n)
    (d : IRDocsifierNode n) (hsome : (d.metadata (type_key a)).isSome = true)
    (hmem : some a ∈ bucketOf d (type_key a)) : (AddMetadata type_key (some a) d).2 = d := by
  have hm : (AddMetadata type_key (some a) d).2.metadata = d.metadata := by
    rw [AddMetadata_metadata, pushNew_of_mem _ _ hmem]
    obtain ⟨bucket, hb⟩ := Option.isSome_iff_exists.1 hsome
    have : bucketOf d (type_key a) = bucket := by simp [bucketOf, hb]
    rw [this, ← hb]
    exact Function.update_eq_self _ _
  show ({ d with metadata := (AddMetadata type_key (some a) d).2.metadata } : IRDocsifierNode n)
    = d
  rw [hm]


theorem internAll_rank {n : Nat} (type_key : Fin n → String) (pre : List (Fin n)) (a : Fin n) :
    findIndex (bucketOf (internAll type_key pre (IRDocsifierNode.empty n)) (type_key a)) (some a)
      = firstSeenRank type_key pre a := by
  rw [internAll_bucketOf]
  have hempty : bucketOf (IRDocsifierNode.empty n) (type_key a) = [] := rfl
  rw [hempty]
  unfold findIndex firstSeenRank
  rw [foldl_pushNew_rank, List.takeWhile_map,
    List.dedup_map_of_injective (Option.some_injective _), List.length_map]
  congr 3
  funext b
  simp [bne]

theorem internAll_mem_bucket {n : Nat} (type_key : Fin n → String) (pre : List (Fin n))
    (a : Fin n) :
    some a ∈ bucketOf (internAll type_key pre (IRDocsifierNode.empty n)) (type_key a)
      ↔ a ∈ pre := by
  rw [internAll_bucketOf, foldl_pushNew_mem]
  have hempty : bucketOf (IRDocsifierNode.empty n) (type_key a) = [] := rfl
  simp [hempty]

/-! ## Claims about `AddMetadata` -/

/-- C12: the index `AddMetadata` returns for an object, after any sequence of
`AddMetadata` calls on non-null objects from an empty table, is the number of
distinct objects with its type key interned before its first interning; a
repeated call on the same object, right away or after other objects were
interned, returns the same document and leaves the state as it is; and of two
objects with one type key the one interned first has the smaller index. -/
theorem C12_AddMetadata_first_seen_indices {n : Nat} (type_key : Fin n → String) :
    (∀ (pre : List (Fin n)) (a : Fin n),
      (AddMetadata type_key (some a) (internAll type_key pre (IRDocsifierNode.empty n))).1
        = .ok (metadataDoc (type_key a) (firstSeenRank type_key pre a))) ∧
    (∀ (d : IRDocsifierNode n) (a : Fin n) (objs : List (Fin n)),
      AddMetadata type_key (some a) (internAll type_key objs (AddMetadata type_key (some a) d).2)
        = ((AddMetadata type_key (some a) d).1,
            internAll type_key objs (AddMetadata type_key (some a) d).2)) ∧
    (∀ (pre : List (Fin n)) (a b : Fin n), type_key a = type_key b → a ∈ pre → b ∉ pre →
      ∃ i j : Nat,
        (AddMetadata type_key (some a) (internAll type_key pre (IRDocsifierNode.empty n))).1
          = .ok (metadataDoc (type_key a) i) ∧
        (AddMetadata type_key (some b) (internAll type_key pre (IRDocsifierNode.empty n))).1
          = .ok (metadataDoc (type_key b) j) ∧
        i < j) := by
  refine ⟨?_, ?_, ?_⟩
  · intro pre a
    rw [AddMetadata_fst, internAll_rank]
  · intro d a objs
    have hmem1 : some a ∈ bucketOf (AddMetadata type_key (some a) d).2 (type_key a) := by
      rw [AddMetadata_bucketOf, if_pos rfl]
      by_cases h : some a ∈ bucketOf d (type_key a)
      · rw [pushNew_of_mem _ _ h]; exact h
      · rw [pushNew_of_not_mem _ _ h]; simp
    have hsome1 : ((AddMetadata type_key (some a) d).2.metadata (type_key a)).isSome = true := by
      rw [AddMetadata_metadata, Function.update_same]
      rfl
    have hidx1 : findIndex (bucketOf (AddMetadata type_key (some a) d).2 (type_key a)) (some a)
        = findIndex (bucketOf d (type_key a)) (some a) := by
      rw [AddMetadata_bucketOf, if_pos rfl]
      unfold findIndex
      by_cases h : some a ∈ bucketOf d (type_key a)
      · rw [pushNew_of_mem _ _ h]
      · rw [pushNew_of_not_mem _ _ h, List.indexOf_append_of_not_mem h,
          List.indexOf_eq_length.2 h]
        simp
    have hmem2 : some a ∈ bucketOf (internAll type_key objs (AddMetadata type_key (some a) d).2)
        (type_key a) := by
      rw [internAll_bucketOf, foldl_pushNew_mem]
      exact Or.inl hmem1
    have hidx2 : findIndex (bucketOf (internAll type_key objs (AddMetadata type_key (some a) d).2)
        (type_key a)) (some a)
        = findIndex (bucketOf (AddMetadata type_key (some a) d).2 (type_key a)) (some a) := by
      rw [internAll_bucketOf]
      exact foldl_pushNew_indexOf _ _ _ hmem1
    have hstate := AddMetadata_of_mem type_key a _
      (internAll_metadata_isSome type_key (type_key a) objs _ hsome1) hmem2
    apply Prod.ext
    · rw [AddMetadata_fst, AddMetadata_fst, hidx2, hidx1]
    · exact hstate
  · intro pre a b hkey ha hb
    refine ⟨_, _, AddMetadata_fst _ _ _, AddMetadata_fst _ _ _, ?_⟩
    have hma := (internAll_mem_bucket type_key pre a).2 ha
    have hmb : some b ∉ bucketOf (internAll type_key pre (IRDocsifierNode.empty n))
        (type_key b) := fun h => hb ((internAll_mem_bucket type_key pre b).1 h)
    rw [← hkey] at hmb ⊢
    unfold findIndex
    rw [List.indexOf_eq_length.2 hmb]
    exact List.indexOf_lt_length.2 hma

/-- The documents returned for the sequence object 0, object 1, object 2,
object 0 under `exampleTypeKey`: indices 0, 0, 1 and again 0. -/
theorem internAll_example :
    (AddMetadata exampleTypeKey (some 0) (IRDocsifierNode.empty 3)).1.toOption
      = some (metadataDoc "Var" 0) ∧
    (AddMetadata exampleTypeKey (some 1)
        (internAll exampleTypeKey [0] (IRDocsifierNode.empty 3))).1.toOption
      = some (metadataDoc "Buffer" 0) ∧
    (AddMetadata exampleTypeKey (some 2)
        (internAll exampleTypeKey [0, 1] (IRDocsifierNode.empty 3))).1.toOption
      = some (metadataDoc "Var" 1) ∧
    (AddMetadata exampleTypeKey (some 0)
        (internAll exampleTypeKey [0, 1, 2] (IRDocsifierNode.empty 3))).1.toOption
      = some (metadataDoc "Var" 0) := by
  refine ⟨rfl, rfl, rfl, rfl⟩

/-- C13: for a non-null object, `AddMetadata` returns the document
`metadata[<type key>][<index>]`, and after the call the element at that index
of the bucket of that type key is the object itself. -/
theorem C13_AddMetadata_document_and_slot {n : Nat} (type_key : Fin n → String) (a : Fin n)
    (d : IRDocsifierNode n) :
    ∃ index : Nat,
      (AddMetadata type_key (some a) d).1
        = .ok (.Index (.Index (.Id (IdDoc.mk "metadata")) [.LiteralStr (type_key a)])
            [.LiteralInt index]) ∧
      ((AddMetadata type_key (some a) d).2.metadata (type_key a)).bind
          (fun bucket => bucket[index]?) = some (some a) := by
  refine ⟨findIndex (bucketOf d (type_key a)) (some a), rfl, ?_⟩
  rw [AddMetadata_metadata, Function.update_same]
  show (pushNew (bucketOf d (type_key a)) (some a))[findIndex (bucketOf d (type_key a)) (some a)]?
    = some (some a)
  unfold findIndex
  by_cases h : some a ∈ bucketOf d (type_key a)
  · rw [pushNew_of_mem _ _ h]
    have := List.indexOf_get? h
    simpa using this
  · rw [pushNew_of_not_mem _ _ h, List.indexOf_eq_length.2 h]
    exact List.getElem?_concat_length _ _

/-- C14: `AddMetadata` on the null reference fails with the usage error and
leaves the whole state, the metadata table with its set of buckets included,
as it was; and it fails on no other reference. -/
theorem C14_AddMetadata_null_rejected {n : Nat} (type_key : Fin n → String)
    (d : IRDocsifierNode n) :
    AddMetadata type_key none d = (.error .NullMetadata, d) ∧
    ∀ obj : ObjectRef n, (∃ e, (AddMetadata type_key obj d).1 = .error e) → obj = none := by
  refine ⟨rfl, ?_⟩
  intro obj h
  cases obj with
  | none => rfl
  | some a =>
      obtain ⟨e, he⟩ := h
      rw [AddMetadata_fst] at he
      exact absurd he (by simp)


/-! ## Further claims about `SetCommonPrefix` -/

/-- C17: every entry recorded by `SetCommonPrefix` belongs to a non-null key
`v`, is non-empty, starts at `root`, ends with `v` itself, links each element
to the next by a child reference, and holds no object twice. -/
theorem C17_entries_are_simple_paths_to_the_key {n : Nat} (heap : Heap n)
    (root : ObjectRef n) (is_var : ObjectRef n → Bool) :
    ∃ table, SetCommonPrefix heap root is_var = some table ∧
      ∀ (v : ObjectRef n) (path : List (Fin n)), table v = some path →
        ∃ a : Fin n, v = some a ∧ path ≠ [] ∧ path.head? = root ∧ path.getLast? = some a ∧
          List.Chain' (fun x y => some y ∈ childRefs (heap x)) path ∧ path.Nodup := by
  obtain ⟨s, hs, hinv, _, _⟩ := runVisitor_spec heap root is_var
  refine ⟨s.common_prefix, by simp [SetCommonPrefix, hs], ?_⟩
  intro v path hp
  obtain ⟨a, ha, hpath⟩ := hinv.entries v path hp
  refine ⟨a, ha, ?_, hpath.head, hpath.last, hpath.chain, hpath.nodup⟩
  intro e
  have := hpath.last
  rw [e] at this
  simp at this

/-! ## Claims about the regex builtin registrations -/

/-- C19: `regex.split` declares 2 inputs and 2 arguments and `regex.replace`
declares 3 and 3, but `regex.match` declares 2 inputs with `set_num_inputs`
and 3 arguments with `add_argument`. -/
theorem C19_regex_match_inputs_differ_from_arguments :
    (declaredNumInputs regex_split.calls = some 2 ∧ declaredArguments regex_split.calls = 2) ∧
    (declaredNumInputs regex_match.calls = some 2 ∧ declaredArguments regex_match.calls = 3) ∧
    (declaredNumInputs regex_replace.calls = some 3 ∧
      declaredArguments regex_replace.calls = 3) := by
  decide


/-! ## Exit callbacks are keyed by the object -/

theorem bindOp_apply_unbound {n : Nat} (gen : String → List String → String)
    (fac : Option DocCreator) (obj : ObjectRef n) (frame : Nat) (name_hint : String)
    (w : Session n) (hun : w.d.obj2info obj = none) :
    (∃ info, ((bindOp fac obj frame name_hint).apply gen w).d.obj2info obj = some info) ∧
    ((bindOp fac obj frame name_hint).apply gen w).frames
      = Function.update w.frames frame ((w.frames frame).AddExitCallback (.RemoveVar obj)) := by
  cases fac with
  | none =>
      show (∃ info, (Define gen obj frame name_hint w).2.d.obj2info obj = some info) ∧
        (Define gen obj frame name_hint w).2.frames = _
      rw [Define_of_unbound gen obj frame name_hint w hun]
      exact ⟨⟨_, Function.update_same _ _ _⟩, rfl⟩
  | some factory =>
      show (∃ info, (DefineWithFactory obj frame factory w).2.d.obj2info obj = some info) ∧
        (DefineWithFactory obj frame factory w).2.frames = _
      rw [DefineWithFactory_of_unbound obj frame factory w hun]
      exact ⟨⟨_, Function.update_same _ _ _⟩, rfl⟩

theorem removeVar_apply_bound {n : Nat} (gen : String → List String → String)
    (obj : ObjectRef n) (w : Session n) (info : VariableInfo)
    (hb : w.d.obj2info obj = some info) :
    ((Op.removeVar obj).apply gen w).d.obj2info obj = none ∧
    ((Op.removeVar obj).apply gen w).frames = w.frames := by
  show (RemoveVar obj w.d).2.obj2info obj = none ∧ _
  rw [RemoveVar_of_bound obj w.d info hb]
  exact ⟨Function.update_same _ _ _, rfl⟩

theorem runCallbacks_unbound_fails {n : Nat} (obj : ObjectRef n) :
    ∀ (cbs : List (ExitCallback n)) (d : IRDocsifierNode n),
      d.obj2info obj = none → ExitCallback.RemoveVar obj ∈ cbs →
      ∃ o, (runCallbacks cbs d).1 = .error (.NoSuchObject o) := by
  intro cbs
  induction cbs with
  | nil => intro d _ h; simp at h
  | cons cb rest ih =>
      intro d hun hmem
      cases cb with
      | RemoveVar o0 =>
          cases hb : d.obj2info o0 with
          | none =>
              rw [runCallbacks_cons_unbound o0 rest d hb]
              exact ⟨o0, rfl⟩
          | some info0 =>
              rw [runCallbacks_cons_bound o0 rest d info0 hb]
              have hne : obj ≠ o0 := by
                intro e
                rw [e, hb] at hun
                exact absurd hun (by simp)
              simp only [List.mem_cons, ExitCallback.RemoveVar.injEq] at hmem
              rcases hmem with hmem | hmem
              · exact absurd hmem hne
              · apply ih _ _ hmem
                rw [RemoveVar_of_bound o0 d info0 hb]
                show Function.update d.obj2info o0 none obj = none
                rw [Function.update_noteq hne]
                exact hun

/-- C18: let `obj` be unbound, bound with frame `f` (by either overload of
`Define`), and then removed by a direct `RemoveVar(obj)`.  Running the exit
callbacks of `f` then fails with the no-such-object error (for `obj` itself
when `f` held no callback before).  If `obj` is bound again with another
frame `g` before `f` is closed, the exit callbacks of `f`, when they return,
leave `obj` unbound although the callback of `g` is still registered (and
they do return when `f` held no callback before). -/
theorem C18_exit_callback_keyed_by_object {n : Nat} (gen : String → List String → String)
    (w : Session n) (obj : ObjectRef n) (f g : Nat) (hint1 hint2 : String)
    (fac1 fac2 : Option DocCreator)
    (hun : IsVarDefined obj w.d = false) (hfg : g ≠ f) :
    (∃ o, (runExitCallbacks f
        ((Op.removeVar obj).apply gen ((bindOp fac1 obj f hint1).apply gen w))).1
      = .error (.NoSuchObject o)) ∧
    IsVarDefined obj ((bindOp fac2 obj g hint2).apply gen
        ((Op.removeVar obj).apply gen ((bindOp fac1 obj f hint1).apply gen w))).d = true ∧
    ((runExitCallbacks f ((bindOp fac2 obj g hint2).apply gen
        ((Op.removeVar obj).apply gen ((bindOp fac1 obj f hint1).apply gen w)))).1 = .ok () →
      IsVarDefined obj (runExitCallbacks f ((bindOp fac2 obj g hint2).apply gen
        ((Op.removeVar obj).apply gen ((bindOp fac1 obj f hint1).apply gen w)))).2.d = false ∧
      ExitCallback.RemoveVar obj ∈
        ((runExitCallbacks f ((bindOp fac2 obj g hint2).apply gen
          ((Op.removeVar obj).apply gen
            ((bindOp fac1 obj f hint1).apply gen w)))).2.frames g).callbacks) ∧
    ((w.frames f).callbacks = [] →
      (runExitCallbacks f
          ((Op.removeVar obj).apply gen ((bindOp fac1 obj f hint1).apply gen w))).1
        = .error (.NoSuchObject obj) ∧
      (runExitCallbacks f ((bindOp fac2 obj g hint2).apply gen
          ((Op.removeVar obj).apply gen ((bindOp fac1 obj f hint1).apply gen w)))).1
        = .ok ()) := by
  have hun0 : w.d.obj2info obj = none := by
    unfold IsVarDefined at hun
    cases h : w.d.obj2info obj with
    | none => rfl
    | some i => rw [h] at hun; exact absurd hun (by simp)
  obtain ⟨⟨info1, hb1⟩, hf1⟩ := bindOp_apply_unbound gen fac1 obj f hint1 w hun0
  obtain ⟨hun2, hf2⟩ := removeVar_apply_bound gen obj _ info1 hb1
  obtain ⟨⟨info3, hb3⟩, hf3⟩ := bindOp_apply_unbound gen fac2 obj g hint2 _ hun2
  have hcb2 : (((Op.removeVar obj).apply gen ((bindOp fac1 obj f hint1).apply gen w)).frames
      f).callbacks = (w.frames f).callbacks ++ [ExitCallback.RemoveVar obj] := by
    rw [hf2, hf1, Function.update_same]
    rfl
  have hcb3f : (((bindOp fac2 obj g hint2).apply gen ((Op.removeVar obj).apply gen
      ((bindOp fac1 obj f hint1).apply gen w))).frames f).callbacks
      = (w.frames f).callbacks ++ [ExitCallback.RemoveVar obj] := by
    rw [hf3, Function.update_noteq (fun e => hfg e.symm), hcb2]
  have hcb3g : ExitCallback.RemoveVar obj ∈ (((bindOp fac2 obj g hint2).apply gen
      ((Op.removeVar obj).apply gen ((bindOp fac1 obj f hint1).apply gen w))).frames
      g).callbacks := by
    rw [hf3, Function.update_same]
    simp [FrameNode.AddExitCallback]
  refine ⟨?_, ?_, ?_, ?_⟩
  · rw [(runExitCallbacks_fst f _).1]
    apply runCallbacks_unbound_fails obj _ _ hun2
    rw [hcb2]
    simp
  · unfold IsVarDefined
    rw [hb3]
    rfl
  · intro hok
    obtain ⟨e1, e2⟩ := runExitCallbacks_fst f ((bindOp fac2 obj g hint2).apply gen
      ((Op.removeVar obj).apply gen ((bindOp fac1 obj f hint1).apply gen w)))
    have hok' := hok
    rw [e1] at hok'
    obtain ⟨h1, _, _, _⟩ := runCallbacks_ok _ _ hok'
    constructor
    · unfold IsVarDefined
      rw [e2, h1 obj (by rw [hcb3f]; simp)]
      rfl
    · have hfr : (runExitCallbacks f ((bindOp fac2 obj g hint2).apply gen
          ((Op.removeVar obj).apply gen ((bindOp fac1 obj f hint1).apply gen w)))).2.frames g
          = ((bindOp fac2 obj g hint2).apply gen
          ((Op.removeVar obj).apply gen ((bindOp fac1 obj f hint1).apply gen w))).frames g := by
        unfold runExitCallbacks
        rcases hr : runCallbacks _ _ with ⟨r, d1⟩
        cases r with
        | ok u => exact Function.update_noteq hfg _ _
        | error e => rfl
      rw [hfr]
      exact hcb3g
  · intro hempty
    constructor
    · rw [(runExitCallbacks_fst f _).1, hcb2, hempty]
      exact congrArg Prod.fst (runCallbacks_cons_unbound obj [] _ hun2)
    · rw [(runExitCallbacks_fst f _).1, hcb3f, hempty]
      show (runCallbacks [ExitCallback.RemoveVar obj] _).1 = .ok ()
      rw [runCallbacks_cons_bound obj [] _ info3 hb3]
      rfl

/-- Witness for C18: object 0 bound with frame 7 by name, removed, and bound
again with frame 8 by a factory, starting from `session0`. -/
theorem C18_exit_callback_keyed_by_object_witness :
    IsVarDefined (some 0) session0.d = false ∧
    (runExitCallbacks 7 ((Op.removeVar (some 0)).apply GenerateUniqueName
        ((bindOp none (some 0) 7 "x").apply GenerateUniqueName session0))).1
      = .error (.NoSuchObject (some 0)) ∧
    (runExitCallbacks 7 ((bindOp (some (fun _ => .LiteralInt 0)) (some 0) 8 "y").apply
        GenerateUniqueName ((Op.removeVar (some 0)).apply GenerateUniqueName
          ((bindOp none (some 0) 7 "x").apply GenerateUniqueName session0)))).1 = .ok () ∧
    IsVarDefined (some 0)
      (runExitCallbacks 7 ((bindOp (some (fun _ => .LiteralInt 0)) (some 0) 8 "y").apply
        GenerateUniqueName ((Op.removeVar (some 0)).apply GenerateUniqueName
          ((bindOp none (some 0) 7 "x").apply GenerateUniqueName session0)))).2.d = false :=
  have h := C18_exit_callback_keyed_by_object GenerateUniqueName session0 (some 0) 7 8 "x" "y"
    none (some (fun _ => .LiteralInt 0)) rfl (by decide)
  ⟨rfl, (h.2.2.2 rfl).1, (h.2.2.2 rfl).2, (h.2.2.1 ((h.2.2.2 rfl).2)).1⟩


/-! ## The ghost logs of the walk -/

theorem LogInv_init (n : Nat) : LogInv (Visitor.init n) where
  disc_nodup := by simp [Visitor.init]
  disc_visited := by intro e h; simp [Visitor.init] at h
  hand_nodup := by simp [Visitor.init]
  hand_false := by intro e h; simp [Visitor.init] at h
  hand_keys := by intro a h; simp [Visitor.init] at h
  keys_hand := by intro a h; simp [Visitor.init] at h
  entry_disc := by intro a path h; simp [Visitor.init] at h

theorem LogInv_null {n : Nat} {s : Visitor n} (h : LogInv s) :
    LogInv { s with visited := none :: s.visited } where
  disc_nodup := h.disc_nodup
  disc_visited := fun e he => List.mem_cons_of_mem _ (h.disc_visited e he)
  hand_nodup := h.hand_nodup
  hand_false := h.hand_false
  hand_keys := h.hand_keys
  keys_hand := h.keys_hand
  entry_disc := h.entry_disc

theorem LogInv_enter {n : Nat} {s : Visitor n} {obj : Fin n} (h : LogInv s)
    (hnv : some obj ∉ s.visited) : LogInv (enter obj s) where
  disc_nodup := by
    show ((obj, s.stack_ ++ [obj]) :: s.discovered).map Prod.fst |>.Nodup
    rw [List.map_cons, List.nodup_cons]
    refine ⟨?_, h.disc_nodup⟩
    intro hm
    obtain ⟨e, he, hfst⟩ := List.mem_map.1 hm
    have := h.disc_visited e he
    rw [hfst] at this
    exact hnv this
  disc_visited := by
    intro e he
    have he' : e ∈ (obj, s.stack_ ++ [obj]) :: s.discovered := he
    show some e.1 ∈ some obj :: s.visited
    simp only [List.mem_cons] at he'
    rcases he' with he' | he'
    · subst he'; exact List.mem_cons_self _ _
    · exact List.mem_cons_of_mem _ (h.disc_visited e he')
  hand_nodup := h.hand_nodup
  hand_false := h.hand_false
  hand_keys := h.hand_keys
  keys_hand := h.keys_hand
  entry_disc := fun a path hp => List.mem_cons_of_mem _ (h.entry_disc a path hp)

theorem LogInv_leave {n : Nat} {heap : Heap n} {is_var : ObjectRef n → Bool}
    {root : ObjectRef n} {s3 : Visitor n} {obj : Fin n} {st : List (Fin n)}
    (hinv : WalkInv heap is_var root s3) (hst : s3.stack_ = st ++ [obj])
    (hlog : LogInv s3) (hdisc : (obj, st ++ [obj]) ∈ s3.discovered) :
    LogInv (leave is_var obj s3) ∧ (leave is_var obj s3).discovered = s3.discovered := by
  have hnone : s3.common_prefix (some obj) = none := by
    cases hcp : s3.common_prefix (some obj) with
    | none => rfl
    | some path =>
        have hk := (hinv.keys (some obj)).1 (by simp [hcp])
        obtain ⟨a, ha, _, hns, _⟩ := hk
        simp only [Option.some.injEq] at ha
        subst ha
        exact absurd (by simp [hst]) hns
  have hnh : obj ∉ s3.handled.map Prod.fst := by
    intro hm
    have := hlog.hand_keys obj hm
    rw [hnone] at this
    exact absurd this (by simp)
  rw [leave_eq hinv hst]
  refine ⟨?_, rfl⟩
  by_cases hv : is_var (some obj) = true
  · simp only [hv, if_true]
    constructor
    · exact hlog.disc_nodup
    · exact hlog.disc_visited
    · show (((obj, false) :: s3.handled).map Prod.fst).Nodup
      rw [List.map_cons, List.nodup_cons]
      exact ⟨hnh, hlog.hand_nodup⟩
    · intro e he
      have he' : e ∈ (obj, false) :: s3.handled := he
      simp only [List.mem_cons] at he'
      rcases he' with he' | he'
      · subst he'; rfl
      · exact hlog.hand_false e he'
    · intro a ha
      have ha' : a ∈ ((obj, false) :: s3.handled).map Prod.fst := ha
      show (Function.update s3.common_prefix (some obj) (some (st ++ [obj])) (some a)).isSome
        = true
      by_cases e : a = obj
      · subst e; rw [Function.update_same]; rfl
      · rw [Function.update_noteq (by simpa using e)]
        simp only [List.map_cons, List.mem_cons] at ha'
        rcases ha' with ha' | ha'
        · exact absurd ha' e
        · exact hlog.hand_keys a ha'
    · intro a ha
      have ha' : (Function.update s3.common_prefix (some obj) (some (st ++ [obj]))
          (some a)).isSome = true := ha
      show a ∈ ((obj, false) :: s3.handled).map Prod.fst
      by_cases e : a = obj
      · subst e; simp
      · rw [Function.update_noteq (by simpa using e)] at ha'
        exact List.mem_cons_of_mem _ (hlog.keys_hand a ha')
    · intro a path hp
      have hp' : Function.update s3.common_prefix (some obj) (some (st ++ [obj])) (some a)
          = some path := hp
      show (a, path) ∈ s3.discovered
      by_cases e : a = obj
      · subst e
        rw [Function.update_same] at hp'
        simp only [Option.some.injEq] at hp'
        subst hp'
        exact hdisc
      · rw [Function.update_noteq (by simpa using e)] at hp'
        exact hlog.entry_disc a path hp'
  · simp only [hv]
    exact ⟨hlog.disc_nodup, hlog.disc_visited, hlog.hand_nodup, hlog.hand_false,
      hlog.hand_keys, hlog.keys_hand, hlog.entry_disc⟩

theorem foldlM_log {n : Nat} {heap : Heap n} {is_var : ObjectRef n → Bool}
    {root : ObjectRef n} (f : Visitor n → ObjectRef n → Option (Visitor n))
    (hf : ∀ c s t, f s c = some t → WalkInv heap is_var root s → Callable heap root s c →
      LogInv s →
      (VisitPost heap is_var root s t ∧ LogInv t ∧ ∀ e ∈ s.discovered, e ∈ t.discovered)) :
    ∀ (cs : List (ObjectRef n)) (s t : Visitor n), cs.foldlM f s = some t →
      WalkInv heap is_var root s → (∀ c ∈ cs, Callable heap root s c) → LogInv s →
      (VisitPost heap is_var root s t ∧ LogInv t ∧ ∀ e ∈ s.discovered, e ∈ t.discovered) := by
  intro cs
  induction cs with
  | nil =>
      intro s t h hinv _ hlog
      simp only [List.foldlM_nil, Option.pure_def, Option.some.injEq] at h
      subst h
      exact ⟨VisitPost.refl hinv, hlog, fun _ he => he⟩
  | cons c cs ih =>
      intro s t h hinv hcall hlog
      simp only [List.foldlM_cons, Option.bind_eq_bind, Option.bind_eq_some] at h
      obtain ⟨s1, h1, h2⟩ := h
      obtain ⟨p1, l1, m1⟩ := hf c s s1 h1 hinv (hcall c (List.mem_cons_self _ _)) hlog
      have hcall1 : ∀ c1 ∈ cs, Callable heap root s1 c1 := fun c1 hc1 =>
        Callable_of_stack_eq p1.stack (hcall c1 (List.mem_cons_of_mem _ hc1))
      obtain ⟨p2, l2, m2⟩ := ih s1 t h2 p1.inv hcall1 l1
      exact ⟨p1.trans p2, l2, fun e he => m2 e (m1 e he)⟩

theorem Visit_log {n : Nat} (heap : Heap n) (is_var : ObjectRef n → Bool)
    (root : ObjectRef n) :
    ∀ (fuel : Nat) (value : ObjectRef n) (s t : Visitor n),
      Visit heap is_var fuel value s = some t → WalkInv heap is_var root s →
      Callable heap root s value → LogInv s →
      (VisitPost heap is_var root s t ∧ LogInv t ∧ ∀ e ∈ s.discovered, e ∈ t.discovered) := by
  intro fuel
  induction fuel with
  | zero =>
      intro value s t h
      simp [Visit] at h
  | succ fuel ih =>
      intro value s t h hinv hcall hlog
      have hpost := (Visit_post heap is_var root (fuel + 1) value s t h hinv hcall).1
      refine ⟨hpost, ?_⟩
      by_cases hv : value ∈ s.visited
      · rw [Visit_of_visited heap is_var fuel value s hv] at h
        simp only [Option.some.injEq] at h
        subst h
        exact ⟨hlog, fun _ he => he⟩
      · cases value with
        | none =>
            rw [Visit_null heap is_var fuel s hv] at h
            simp only [Option.some.injEq] at h
            subst h
            exact ⟨LogInv_null hlog, fun _ he => he⟩
        | some obj =>
            rw [Visit_obj heap is_var fuel obj s hv] at h
            simp only [Option.map_eq_some'] at h
            obtain ⟨s3, hfold, hleave⟩ := h
            have hleave1 : leave is_var obj s3 = t := hleave
            have hinv2 : WalkInv heap is_var root (enter obj s) := WalkInv_enter hinv hv hcall
            have hcall2 : ∀ c ∈ childRefs (heap obj), Callable heap root (enter obj s) c := by
              intro c hc
              unfold Callable
              show (match (s.stack_ ++ [obj]).getLast? with
                | none => c = root
                | some top => c ∈ childRefs (heap top))
              simp only [List.getLast?_concat]
              exact hc
            have hfold1 : (childRefs (heap obj)).foldlM
                (fun st c => Visit heap is_var fuel c st) (enter obj s) = some s3 := hfold
            obtain ⟨p3, l3, m3⟩ := foldlM_log (fun st c => Visit heap is_var fuel c st)
              (fun c s1 t1 hs => ih c s1 t1 hs) _ _ _ hfold1 hinv2 hcall2
              (LogInv_enter hlog hv)
            have hst : s3.stack_ = s.stack_ ++ [obj] := p3.stack
            have hdisc : (obj, s.stack_ ++ [obj]) ∈ s3.discovered :=
              m3 _ (List.mem_cons_self _ _)
            obtain ⟨l4, d4⟩ := LogInv_leave p3.inv hst l3 hdisc
            subst hleave1
            refine ⟨l4, ?_⟩
            intro e he
            rw [d4]
            exact m3 e (List.mem_cons_of_mem _ he)

theorem runVisitor_log {n : Nat} (heap : Heap n) (root : ObjectRef n)
    (is_var : ObjectRef n → Bool) :
    ∃ s, runVisitor heap root is_var = some s ∧ LogInv s := by
  obtain ⟨s, hs, _, _, _⟩ := runVisitor_spec heap root is_var
  have hcall : Callable heap root (Visitor.init n) root := by
    simp [Callable, Visitor.init]
  obtain ⟨_, hlog, _⟩ := Visit_log heap is_var root (n + 2) root (Visitor.init n) s hs
    (WalkInv_init heap is_var root) hcall (LogInv_init n)
  exact ⟨s, hs, hlog⟩

/-- C16: in the state the walk of `SetCommonPrefix` ends in, the log of
`HandleVar` calls holds at most one call per object, none of the calls took
the prefix-shrinking branch, an object is a key exactly when `HandleVar` was
called on it, each object was discovered (pushed on the path stack) at most
once, and every entry is the path stack as it stood when its variable was
discovered. -/
theorem C16_HandleVar_once_entry_is_first_path {n : Nat} (heap : Heap n) (root : ObjectRef n)
    (is_var : ObjectRef n → Bool) :
    ∃ s, runVisitor heap root is_var = some s ∧
      (∀ a : Fin n, (s.handled.map Prod.fst).count a ≤ 1) ∧
      (∀ e ∈ s.handled, e.2 = false) ∧
      (∀ a : Fin n, a ∈ s.handled.map Prod.fst ↔ (s.common_prefix (some a)).isSome = true) ∧
      (∀ a : Fin n, (s.discovered.map Prod.fst).count a ≤ 1) ∧
      (∀ (a : Fin n) (path : List (Fin n)),
        s.common_prefix (some a) = some path → (a, path) ∈ s.discovered) := by
  obtain ⟨s, hs, hlog⟩ := runVisitor_log heap root is_var
  refine ⟨s, hs, ?_, hlog.hand_false, ?_, ?_, hlog.entry_disc⟩
  · intro a
    exact List.nodup_iff_count_le_one.1 hlog.hand_nodup a
  · intro a
    exact ⟨hlog.hand_keys a, hlog.keys_hand a⟩
  · intro a
    exact List.nodup_iff_count_le_one.1 hlog.disc_nodup a

/-- On the heap where `R` holds `F1` and `F2` and both hold `V`: `HandleVar`
was called once, on `V`, without shrinking, and `V` was discovered with the
stack `[R, F1, V]`. -/
theorem diamondHeap_logs :
    (runVisitor diamondHeap (some 0) diamondIsVar).map (fun s => s.handled)
      = some [(3, false)] ∧
    (runVisitor diamondHeap (some 0) diamondIsVar).map
        (fun s => s.discovered.filter (fun e => e.1 = 3))
      = some [(3, [0, 1, 3])] := by
  constructor <;> decide

/-! ## The shrink step on its own -/

theorem shrinkLoop_cons {n : Nat} (x y : Fin n) (a b : List (Fin n)) :
    ∀ (r i : Nat), shrinkLoop (x :: a) (y :: b) r (i + 1) = x :: shrinkLoop a b r i := by
  intro r
  induction r with
  | zero => intro i; rfl
  | succ r ih =>
      intro i
      simp only [shrinkLoop, List.getElem?_cons_succ, List.take_succ_cons]
      by_cases h : a[i]? = b[i]?
      · simp only [h, ne_eq, not_true_eq_false, if_false]
        exact ih (i + 1)
      · simp only [ne_eq, h, not_false_eq_true, if_true]

theorem shrinkLoop_eq_shrinkResult {n : Nat} :
    ∀ (a b : List (Fin n)), shrinkLoop a b (min a.length b.length) 0 = shrinkResult a b := by
  intro a
  induction a with
  | nil =>
      intro b
      cases b with
      | nil => rfl
      | cons y ys => rfl
  | cons x xs ih =>
      intro b
      cases b with
      | nil => rfl
      | cons y ys =>
          have hmin : min (x :: xs).length (y :: ys).length = min xs.length ys.length + 1 := by
            simp only [List.length_cons]
            omega
          rw [hmin]
          simp only [shrinkLoop, shrinkResult, List.getElem?_cons_zero, List.take_zero,
            Option.some.injEq, ne_eq, zero_add]
          by_cases h : x = y
          · simp only [h, not_true_eq_false, if_false]
            rw [shrinkLoop_cons, ih]
          · simp only [h, not_false_eq_true, if_true]

theorem shrinkResult_eq_longestCommonPrefix {α : Type} [DecidableEq α] :
    ∀ (a b : List α), ¬ (b.length < a.length ∧ b <+: a) →
      shrinkResult a b = longestCommonPrefix a b := by
  intro a
  induction a with
  | nil =>
      intro b _
      cases b <;> rfl
  | cons x xs ih =>
      intro b h
      cases b with
      | nil =>
          exact absurd ⟨by simp, List.nil_prefix⟩ h
      | cons y ys =>
          simp only [shrinkResult, longestCommonPrefix]
          by_cases e : x = y
          · subst e
            simp only [ne_eq, not_true_eq_false, if_false, if_true]
            rw [ih ys]
            intro hp
            apply h
            refine ⟨by simpa using hp.1, ?_⟩
            obtain ⟨t, ht⟩ := hp.2
            exact ⟨t, by simp [ht]⟩
          · simp only [ne_eq, e, not_false_eq_true, if_true, if_false]

theorem HandleVar_entry_of_bound {n : Nat} (var : Fin n) (s : Visitor n) (a : List (Fin n))
    (hentry : s.common_prefix (some var) = some a) :
    Visitor.common_prefix (HandleVar var s) (some var) = some (shrinkResult a s.stack_) := by
  unfold HandleVar
  rw [hentry]
  show Function.update s.common_prefix (some var) _ (some var) = _
  rw [Function.update_same, shrinkLoop_eq_shrinkResult]

theorem not_proper_prefix_of_ends_in_var {n : Nat} (var : Fin n) (a b : List (Fin n))
    (hlast : b.getLast? = some var) (hvar : var ∉ a.dropLast) :
    ¬ (b.length < a.length ∧ b <+: a) := by
  rintro ⟨hlen, t, ht⟩
  have htne : t ≠ [] := by
    intro e
    rw [e, List.append_nil] at ht
    rw [ht] at hlen
    exact Nat.lt_irrefl _ hlen
  apply hvar
  rw [← ht, List.dropLast_append_of_ne_nil _ htne]
  exact List.mem_append_left _ (List.mem_of_getLast?_eq_some hlast)

/-- In every state in which the path stack ends in the variable and the entry
holds the variable at most as its last element, `HandleVar` shrinks an
existing entry to its longest common prefix with the stack. -/
theorem HandleVar_shrinks_when_stack_ends_in_var {n : Nat} (var : Fin n) (s : Visitor n)
    (a : List (Fin n)) (hentry : s.common_prefix (some var) = some a)
    (hlast : s.stack_.getLast? = some var) (hvar : var ∉ a.dropLast) :
    Visitor.common_prefix (HandleVar var s) (some var)
      = some (longestCommonPrefix a s.stack_) := by
  rw [HandleVar_entry_of_bound var s a hentry,
    shrinkResult_eq_longestCommonPrefix a s.stack_
      (not_proper_prefix_of_ends_in_var var a s.stack_ hlast hvar)]

end Matx
